import Mathlib

/-!
Verification of the document segmentation and context-assembly pipeline of the
Research_Assistant repository.

Python text values are modelled as `List Char` (`Text`), which matches Python's
view of a `str` as a sequence of characters.  Absolute character offsets that
the source manipulates as Python `int`s (which may become `-1` through a failed
`str.find`) are modelled as `Int`.  The tiktoken encoder used for token
counting is an external library; the chunking algorithms are parameterised by a
token-counting function `tc : Text → Nat` standing for
`len(ENCODING.encode(·))`.

The embedded modules:
  * `Chunker4`       — `Data_Curator/scripts/chunker4.py`
  * `PDFChunker`     — `backend/app/services/pdf_chunker.py`
  * `CoreAI`         — `backend/app/core/ai.py`
  * `DocumentService`— `backend/app/services/document_service.py`
  * `QueryReformulation` — `backend/app/services/query_reformulation.py`
-/

/-- Python strings viewed as character lists. -/
abbrev Text := List Char

/-- ASCII whitespace as recognised by Python's `str.strip` / regex `\s`
(the documents only contain ASCII whitespace). -/
def isWS (c : Char) : Bool :=
  c = ' ' || c = '\t' || c = '\n' || c = '\r' || c = '\x0b' || c = '\x0c'

/-- Remove trailing whitespace (`str.rstrip`). -/
def dropTrailingWS (t : Text) : Text :=
  (t.reverse.dropWhile isWS).reverse

/-- Python `str.strip()`: drop leading and trailing whitespace. -/
def pyStrip (t : Text) : Text :=
  dropTrailingWS (t.dropWhile isWS)

/-- Python `sub in big`: contiguous-substring test. -/
def containsSub (big sub : Text) : Bool :=
  (List.range (big.length + 1)).any fun i => sub.isPrefixOf (big.drop i)

/-- Python `big.find(sub, start)`: the least index `i ≥ start` (after Python's
clamping of a negative `start`) at which `sub` occurs in `big`, or `-1`. -/
def pyFind (big sub : Text) (start : Int) : Int :=
  let s : Nat := if start < 0 then (big.length + start).toNat else start.toNat
  match (List.range' s (big.length + 1 - s)).find?
      (fun i => sub.isPrefixOf (big.drop i)) with
  | some i => (i : Int)
  | none => -1

/-- Python `str.splitlines(True)` restricted to `\n` line terminators: split
after each newline, keeping the terminator with its line. -/
def splitLinesKeep (t : Text) : List Text :=
  go [] t
where
  go (cur : Text) : Text → List Text
    | [] => if cur = [] then [] else [cur]
    | c :: rest =>
      if c = '\n' then (cur ++ [c]) :: go [] rest
      else go (cur ++ [c]) rest

/-- Scanner for `re.split(r'\n\n+', ·)`: `done` holds the finished pieces,
`cur` the piece being built, `nl` the length of the pending newline run.  A
run of two or more newlines is a separator (consumed greedily); a lone newline
belongs to the current piece. -/
def spGo (done : List Text) (cur : Text) (nl : Nat) : Text → List Text
  | [] =>
    if 2 ≤ nl then done ++ [cur, []]
    else done ++ [if nl = 1 then cur ++ ['\n'] else cur]
  | c :: rest =>
    if c = '\n' then spGo done cur (nl + 1) rest
    else if 2 ≤ nl then spGo (done ++ [cur]) [c] 0 rest
    else if nl = 1 then spGo done (cur ++ ['\n', c]) 0 rest
    else spGo done (cur ++ [c]) 0 rest

/-- Python `re.split(r'\n\n+', t)`: split on each maximal run of two or more
newlines. -/
def splitParas (t : Text) : List Text :=
  spGo [] [] 0 t

/-- Does a character end a sentence for `re.split(r'(?<=[.!?])\s+', ·)`? -/
def isSentEnd (c : Char) : Bool := c = '.' || c = '!' || c = '?'

/-- Scanner for `re.split(r'(?<=[.!?])\s+', ·)`: a whitespace run immediately
preceded by `.`/`!`/`?` is a separator (`pend = true` while consuming it);
other whitespace belongs to the current piece. -/
def ssGo (done : List Text) (cur : Text) (pend : Bool) : Text → List Text
  | [] => if pend then done ++ [cur, []] else done ++ [cur]
  | c :: rest =>
    if isWS c then
      if pend then ssGo done cur true rest
      else if (match cur.getLast? with
               | some l => isSentEnd l
               | none => false) then ssGo done cur true rest
      else ssGo done (cur ++ [c]) false rest
    else
      if pend then ssGo (done ++ [cur]) [c] false rest
      else ssGo done (cur ++ [c]) false rest

/-- Python `re.split(r'(?<=[.!?])\s+', t)`: split after `.`/`!`/`?` followed by
whitespace, the whitespace run being consumed by the separator. -/
def splitSentences (t : Text) : List Text :=
  ssGo [] [] false t

/-- Python `t.split('\n')`. -/
def splitOnNL (t : Text) : List Text :=
  go [] t
where
  go (cur : Text) : Text → List Text
    | [] => [cur]
    | c :: rest => if c = '\n' then cur :: go [] rest else go (cur ++ [c]) rest

/-- Python `os.path.basename` for POSIX paths: the part after the last `/`. -/
def pyBasename (t : Text) : Text :=
  (t.reverse.takeWhile (· ≠ '/')).reverse

/-- Python `str.lower()` (ASCII). -/
def lowerText (t : Text) : Text :=
  t.map Char.toLower

/-- Python `l[:stop]` list slicing with a possibly negative `stop`. -/
def pySliceStop (l : List α) (stop : Int) : List α :=
  if stop < 0 then l.take ((l.length + stop).toNat) else l.take stop.toNat

/-- Python `t[a:b]` for `0 ≤ a ≤ b` (the slice of a text between offsets). -/
def sliceText (t : Text) (a b : Nat) : Text :=
  (t.drop a).take (b - a)

namespace Chunker4

/-- One page of parser output (`page['page_id']`, `page['text']`,
`page['tables']`), a table being `{'table_id': ..., 'data': rows}`. -/
structure Table where
  tableId : Text
  data : List (List Text)
  deriving DecidableEq, Repr

structure Page where
  pageId : Nat
  text : Text
  tables : List Table
  deriving DecidableEq, Repr

/-- An entry of the `page_indices` list built by `concatenate_page_texts`. -/
structure PageIndex where
  pageId : Nat
  startIndex : Nat
  endIndex : Nat
  deriving DecidableEq, Repr

/-- A chunk produced by `chunker4.py` (`text` plus its `metadata` dict);
`subChunk = some n` models `"sub_chunk": f"Part {n}"`. -/
structure Chunk4 where
  text : Text
  part : Option Text
  chapter : Option Text
  section' : Option Text
  startIndex : Int
  endIndex : Int
  subChunk : Option Nat
  deriving DecidableEq, Repr

/-- `concatenate_page_texts(pages)` from `chunker4.py` (the method
`PDFChunker.concatenate_page_texts` in `backend/app/services/pdf_chunker.py`
is character-for-character the same code). -/
def concatenate_page_texts (pages : List Page) : Text × List PageIndex :=
  go pages [] [] 0
where
  go : List Page → Text → List PageIndex → Nat → Text × List PageIndex
    | [], fullText, pageIndices, _ => (fullText, pageIndices)
    | p :: ps, fullText, pageIndices, currentIndex =>
      let pageText := p.text ++ ('\n' :: ['\n'])
      let startIndex := currentIndex
      let endIndex := startIndex + pageText.length
      go ps (fullText ++ pageText)
        (pageIndices ++ [⟨p.pageId, startIndex, endIndex⟩]) endIndex

/-- The sentence-accumulation loop of `split_into_paragraph_chunks` (the
`for sentence in sentences:` loop plus the final flush).  State mirrors the
Python locals: `buf` = `sub_chunk_text`, `tok` = `sub_chunk_tokens`,
`subStart` = `sub_start_index`, `count` = `sub_chunk_count`,
`cur` = `current_index`.  Returns the emitted chunks together with the final
value of `current_index`. -/
def sentLoop (tc : Text → Nat) (maxTokens : Nat)
    (part chapter section' : Option Text) :
    List Text → Text → Nat → Int → Nat → Int → List Chunk4 × Int
  | [], buf, _, subStart, count, cur =>
    let s := pyStrip buf
    if s ≠ [] then
      ([⟨s, part, chapter, section', subStart, subStart + s.length,
          if count > 1 then some count else none⟩],
        subStart + s.length)
    else ([], cur)
  | sentence :: rest, buf, tok, subStart, count, cur =>
    let st := tc sentence
    if tok + st ≤ maxTokens then
      sentLoop tc maxTokens part chapter section' rest
        (buf ++ sentence ++ [' ']) (tok + st) subStart count cur
    else
      let s := pyStrip buf
      if s ≠ [] then
        let e := subStart + s.length
        let r := sentLoop tc maxTokens part chapter section' rest
          (sentence ++ [' ']) st e (count + 1) e
        (⟨s, part, chapter, section', subStart, e, some count⟩ :: r.1, r.2)
      else
        sentLoop tc maxTokens part chapter section' rest
          (sentence ++ [' ']) st cur (count + 1) cur

/-- The paragraph loop of `split_into_paragraph_chunks`. -/
def parLoop (tc : Text → Nat) (maxTokens : Nat)
    (part chapter section' : Option Text) (fullText : Text) :
    List Text → Int → List Chunk4
  | [], _ => []
  | para :: rest, cur =>
    let p := pyStrip para
    if p = [] then parLoop tc maxTokens part chapter section' fullText rest cur
    else
      let pStart := pyFind fullText p cur
      let pEnd := pStart + p.length
      if tc p ≤ maxTokens then
        ⟨p, part, chapter, section', pStart, pEnd, none⟩ ::
          parLoop tc maxTokens part chapter section' fullText rest pEnd
      else
        let r := sentLoop tc maxTokens part chapter section'
          (splitSentences p) [] 0 pStart 1 cur
        r.1 ++ parLoop tc maxTokens part chapter section' fullText rest r.2

/-- `split_into_paragraph_chunks(text, part, chapter, section, start_index,
full_text)` from `chunker4.py`. -/
def split_into_paragraph_chunks (tc : Text → Nat) (maxTokens : Nat)
    (text : Text) (part chapter section' : Option Text)
    (startIndex : Int) (fullText : Text) : List Chunk4 :=
  parLoop tc maxTokens part chapter section' fullText (splitParas text)
    startIndex

/-- `PART_PATTERN = r'^PART [I]+ .+$'` matched against a stripped (hence
newline-free) line. -/
def isPartLine (l : Text) : Bool :=
  ("PART ".data.isPrefixOf l) &&
    (let r := l.drop 5
     let is := r.takeWhile (· = 'I')
     let rest := r.drop is.length
     decide (is ≠ []) && decide (rest.head? = some ' ') &&
       decide (2 ≤ rest.length))

/-- `CHAPTER_PATTERN = r'^CHAPTER \d+ .+$'` matched against a stripped line. -/
def isChapterLine (l : Text) : Bool :=
  ("CHAPTER ".data.isPrefixOf l) &&
    (let r := l.drop 8
     let ds := r.takeWhile Char.isDigit
     let rest := r.drop ds.length
     decide (ds ≠ []) && decide (rest.head? = some ' ') &&
       decide (2 ≤ rest.length))

/-- `SECTION_PATTERN = r'^[A-Z\s\d.,:;!?()\-—–]+$'` matched against a stripped
line: every character is in the class and the line is non-empty. -/
def isSectionLine (l : Text) : Bool :=
  decide (l ≠ []) &&
    l.all fun c =>
      ('A' ≤ c && c ≤ 'Z') || isWS c || c.isDigit ||
        (".,:;!?()-—–".data.contains c)

/-- The mutable state of `identify_boundaries_and_paragraphs`. -/
structure SegState where
  part : Option Text
  chapter : Option Text
  section' : Option Text
  curText : Text
  curStart : Int
  chunks : List Chunk4
  deriving Repr

/-- One iteration of the `for line in lines:` loop of
`identify_boundaries_and_paragraphs`. -/
def segStep (tc : Text → Nat) (maxTokens : Nat) (fullText : Text)
    (st : SegState) (line : Text) : SegState :=
  let ls := pyStrip line
  if isPartLine ls then
    { part := some ls, chapter := none, section' := none, curText := [],
      curStart := st.curStart + line.length,
      chunks := st.chunks ++
        (if st.curText ≠ [] then
          split_into_paragraph_chunks tc maxTokens st.curText st.part
            st.chapter st.section' st.curStart fullText
         else []) }
  else if isChapterLine ls then
    { part := st.part, chapter := some ls, section' := none, curText := line,
      curStart := st.curStart + line.length,
      chunks := st.chunks ++
        (if st.curText ≠ [] then
          split_into_paragraph_chunks tc maxTokens st.curText st.part
            st.chapter st.section' st.curStart fullText
         else []) }
  else if isSectionLine ls && decide (10 < ls.length) &&
      !("PART ".data.isPrefixOf ls) then
    { part := st.part, chapter := st.chapter, section' := some ls,
      curText := line, curStart := st.curStart + line.length,
      chunks := st.chunks ++
        (if st.curText ≠ [] then
          split_into_paragraph_chunks tc maxTokens st.curText st.part
            st.chapter st.section' st.curStart fullText
         else []) }
  else
    { st with curText := st.curText ++ line }

/-- `identify_boundaries_and_paragraphs(full_text)` from `chunker4.py`. -/
def identify_boundaries_and_paragraphs (tc : Text → Nat) (maxTokens : Nat)
    (fullText : Text) : List Chunk4 :=
  let st := (splitLinesKeep fullText).foldl (segStep tc maxTokens fullText)
    ⟨none, none, none, [], 0, []⟩
  st.chunks ++
    (if st.curText ≠ [] then
      split_into_paragraph_chunks tc maxTokens st.curText st.part st.chapter
        st.section' st.curStart fullText
     else [])

/-- The rendered text of one table in `chunker4.process_tables`:
`f"Table {id}:\n"` followed by pipe-joined rows, then `.strip()`. -/
def renderTable4 (t : Table) : Text :=
  pyStrip ("Table ".data ++ t.tableId ++ [':', '\n'] ++
    (t.data.foldl (fun acc row =>
      acc ++ (List.intercalate " | ".data row) ++ ['\n']) []))

/-- The per-chunk table append of `chunker4.process_tables`: no duplicate
guard, the table text is appended to every overlapping chunk. -/
def bindOne4 (pi' : PageIndex) (t : Table) (c : Chunk4) : Chunk4 :=
  if c.startIndex < (pi'.endIndex : Int) ∧ (pi'.startIndex : Int) < c.endIndex
  then { c with text := c.text ++ '\n' :: renderTable4 t }
  else c

def bindTables4 (pi' : PageIndex) : List Table → List Chunk4 → List Chunk4
  | [], cs => cs
  | t :: ts, cs => bindTables4 pi' ts (cs.map (bindOne4 pi' t))

def processPage4 (pageIndices : List PageIndex) (p : Page)
    (cs : List Chunk4) : List Chunk4 :=
  match pageIndices.find? (fun e => e.pageId == p.pageId) with
  | none => cs
  | some pi' => if p.tables = [] then cs else bindTables4 pi' p.tables cs

/-- `process_tables(pages, chunks, page_indices)` from `chunker4.py`. -/
def process_tables (pages : List Page) (chunks : List Chunk4)
    (pageIndices : List PageIndex) : List Chunk4 :=
  match pages with
  | [] => chunks
  | p :: ps => process_tables ps (processPage4 pageIndices p chunks) pageIndices

end Chunker4

namespace PDFChunker

open Chunker4 (Table Page PageIndex)

/-- A section produced by `PDFChunker.extract_sections` (name, text and the
absolute start offset of the section in the concatenated text). -/
structure PSection where
  name : Text
  text : Text
  startIndex : Int
  deriving DecidableEq, Repr

/-- An entry of the `paragraph_indices` list of `create_contextual_chunks`. -/
structure PPara where
  text : Text
  startIndex : Int
  endIndex : Int
  deriving DecidableEq, Repr

/-- A chunk produced by `PDFChunker.create_contextual_chunks`; `paraRange`
models the `paragraph_range` metadata string (`f"{i+1}-{j}"` as
`(i+1, some j)`, `f"{i+1}"` as `(i+1, none)`). -/
structure PChunk where
  text : Text
  section' : Text
  startIndex : Int
  endIndex : Int
  paraRange : Nat × Option Nat
  deriving DecidableEq, Repr

/-- The `paragraph_indices` construction of `create_contextual_chunks`:
locate each paragraph in the section text starting from the previous
paragraph's end; paragraphs that are not found (`find` returns `-1`) are
skipped and do not advance the position. -/
def buildParaIndices (secText : Text) (secStart : Int) :
    List Text → Int → List PPara
  | [], _ => []
  | p :: ps, cur =>
    let pStart := pyFind secText p cur
    if pStart ≠ -1 then
      ⟨p, secStart + pStart, secStart + pStart + p.length⟩ ::
        buildParaIndices secText secStart ps (pStart + p.length)
    else
      buildParaIndices secText secStart ps cur

/-- The inner `while j < len(paragraph_indices) and current_tokens < max:`
loop of `create_contextual_chunks`.  `fuel` bounds the iteration count; `j`
increases by one per iteration, so `fuel = paragraph_indices.length` makes the
recursion equal to the Python `while` loop.  Returns the updated
`(chunk_text, current_tokens, chunk_end_index, j)`. -/
def ccInner (tc : Text → Nat) (maxTokens ovTokens : Nat) (pidx : List PPara) :
    Nat → Nat → Text → Nat → Int → Text × Nat × Int × Nat
  | 0, j, text, tokens, ce => (text, tokens, ce, j)
  | fuel + 1, j, text, tokens, ce =>
    if h : j < pidx.length ∧ tokens < maxTokens then
      let p := pidx.get ⟨j, h.1⟩
      let ptok := tc p.text
      if tokens + ptok > maxTokens ∧ tokens > ovTokens then (text, tokens, ce, j)
      else
        ccInner tc maxTokens ovTokens pidx fuel (j + 1)
          (text ++ p.text ++ ('\n' :: ['\n'])) (tokens + ptok) p.endIndex
    else (text, tokens, ce, j)

/-- The overlap `while next_i < j and overlap_tokens < overlap:` loop of
`create_contextual_chunks` (fuelled like `ccInner`); returns `next_i`. -/
def ccOverlap (tc : Text → Nat) (ovTokens : Nat) (pidx : List PPara) :
    Nat → Nat → Nat → Nat → Nat
  | 0, nextI, _, _ => nextI
  | fuel + 1, nextI, j, ot =>
    if nextI < j ∧ ot < ovTokens then
      let ot' := ot + tc (pidx.getD (nextI - 1) ⟨[], 0, 0⟩).text
      if ovTokens ≤ ot' then nextI
      else ccOverlap tc ovTokens pidx fuel (nextI + 1) j ot'
    else nextI

/-- The outer `while i < len(paragraph_indices):` sliding-window loop of
`create_contextual_chunks` (fuelled; `i` increases by at least one per
iteration, so `fuel = paragraph_indices.length` reproduces the `while`). -/
def ccOuter (tc : Text → Nat) (maxTokens ovTokens : Nat) (name : Text)
    (pidx : List PPara) : Nat → Nat → List PChunk
  | 0, _ => []
  | fuel + 1, i =>
    if hi : i < pidx.length then
      let header := "SECTION: ".data ++ name ++ ('\n' :: ['\n'])
      let r := ccInner tc maxTokens ovTokens pidx pidx.length i header
        (tc header) 0
      let cstart := (pidx.get ⟨i, hi⟩).startIndex
      if r.2.2.2 > i then
        let nextI := ccOverlap tc ovTokens pidx pidx.length (i + 1) r.2.2.2 0
        ⟨pyStrip r.1, name, cstart, r.2.2.1, (i + 1, some r.2.2.2)⟩ ::
          ccOuter tc maxTokens ovTokens name pidx fuel (max (i + 1) (nextI - 1))
      else
        let p := pidx.get ⟨i, hi⟩
        ⟨pyStrip (r.1 ++ p.text ++ ('\n' :: ['\n'])), name, cstart, p.endIndex,
            (i + 1, none)⟩ ::
          ccOuter tc maxTokens ovTokens name pidx fuel (i + 1)
    else []

/-- `PDFChunker.create_contextual_chunks(sections)` from
`backend/app/services/pdf_chunker.py`, parameterised by the token counter and
by `MAX_TOKENS_PER_CHUNK` / `CHUNK_OVERLAP_TOKENS`. -/
def create_contextual_chunks (tc : Text → Nat) (maxTokens ovTokens : Nat)
    (sections : List PSection) : List PChunk :=
  sections.foldl
    (fun acc sec =>
      let paragraphs := (splitParas (pyStrip sec.text)).filter
        (fun p => pyStrip p ≠ [])
      if paragraphs = [] then acc
      else
        let pidx := buildParaIndices sec.text sec.startIndex paragraphs 0
        acc ++ ccOuter tc maxTokens ovTokens sec.name pidx pidx.length 0)
    []

/-- The rendered text of one table in `PDFChunker.process_tables`:
`f"TABLE {id}:\n"` followed by pipe-joined rows, then `.strip()`. -/
def renderTable (t : Table) : Text :=
  pyStrip ("TABLE ".data ++ t.tableId ++ [':', '\n'] ++
    (t.data.foldl (fun acc row =>
      acc ++ (List.intercalate " | ".data row) ++ ['\n']) []))

/-- The duplicate-append guard string `f"TABLE {table['table_id']}:"`. -/
def tableKey (t : Table) : Text :=
  "TABLE ".data ++ t.tableId ++ [':']

/-- The per-chunk body of `PDFChunker.process_tables`: append the rendered
table to an overlapping chunk unless its `TABLE {id}:` header is already
present in the chunk text. -/
def bindOne (pi' : PageIndex) (t : Table) (c : PChunk) : PChunk :=
  if c.startIndex < (pi'.endIndex : Int) ∧ (pi'.startIndex : Int) < c.endIndex
  then
    if !(containsSub c.text "TABLE".data) then
      { c with text := c.text ++ ('\n' :: ['\n']) ++ renderTable t }
    else if !(containsSub c.text (tableKey t)) then
      { c with text := c.text ++ ('\n' :: ['\n']) ++ renderTable t }
    else c
  else c

def bindTables (pi' : PageIndex) : List Table → List PChunk → List PChunk
  | [], cs => cs
  | t :: ts, cs => bindTables pi' ts (cs.map (bindOne pi' t))

def processPage (pageIndices : List PageIndex) (p : Page)
    (cs : List PChunk) : List PChunk :=
  match pageIndices.find? (fun e => e.pageId == p.pageId) with
  | none => cs
  | some pi' => if p.tables = [] then cs else bindTables pi' p.tables cs

/-- `PDFChunker.process_tables(pages, chunks, page_indices)` from
`backend/app/services/pdf_chunker.py`. -/
def process_tables (pages : List Page) (chunks : List PChunk)
    (pageIndices : List PageIndex) : List PChunk :=
  match pages with
  | [] => chunks
  | p :: ps => process_tables ps (processPage pageIndices p chunks) pageIndices

end PDFChunker

namespace CoreAI

/-- A Python value as distinguished by `safe_parse_float` inside
`calculate_similarity` (`backend/app/core/ai.py`): an `int`/`float` with value
`q`; a string that `float(·)` parses to `q`; a string starting with `[`/`(`
whose `ast.literal_eval` yields a non-empty list/tuple with first element `v`;
anything else (unparseable strings, parenthesised scalars, other types), which
coerces to `0.0`. -/
inductive PyVal where
  | num (q : ℚ)
  | strFloat (q : ℚ)
  | strList (head : PyVal)
  | other
  deriving DecidableEq, Repr

/-- `safe_parse_float` from `calculate_similarity`. -/
def safe_parse_float : PyVal → ℚ
  | .num q => q
  | .strFloat q => q
  | .strList v => safe_parse_float v
  | .other => 0

/-- Sum of squares, so that `np.linalg.norm(v) == 0` is modelled exactly as
`sumSq v = 0`. -/
def sumSq (v : List ℚ) : ℚ :=
  v.foldl (fun a x => a + x * x) 0

/-- `calculate_similarity(vector1, vector2)` from `backend/app/core/ai.py`.
The final floating-point cosine value `np.dot(v1,v2)/(‖v1‖·‖v2‖)` is the
external numeric computation `cos`; every branch before it is modelled
exactly (`0.1` is the literal low score for a dimension mismatch). -/
def calculate_similarity (cos : List ℚ → List ℚ → ℚ)
    (vector1 vector2 : List PyVal) : ℚ :=
  if vector1 = [] ∨ vector2 = [] then 0
  else
    let vec1 := vector1.map safe_parse_float
    let vec2 := vector2.map safe_parse_float
    if vec1.length = 0 ∨ vec2.length = 0 then 0
    else if (vec1.all (· = 0)) ∨ (vec2.all (· = 0)) then 0
    else if vec1.length ≠ vec2.length then 1 / 10
    else if sumSq vec1 = 0 ∨ sumSq vec2 = 0 then 0
    else cos vec1 vec2

end CoreAI

namespace DocumentService

open CoreAI

/-- A retrieved candidate row as handled by `document_service.py`: a dict with
optional `chunk_id`, `raw_text`, optional `similarity`, optional `embedding`
and the `metadata` fields used for filtering. -/
structure RChunk where
  chunkId : Option Text
  rawText : Text
  similarity : Option ℚ
  embedding : Option (List PyVal)
  metaDocumentId : Text
  metaSource : Text
  deriving DecidableEq, Repr

/-- The dedup step shared by the aggregation loops of
`get_context_for_project` (and `get_context_from_query`): append a chunk only
if no already-collected chunk has the same `chunk_id`. -/
def dedupStep (acc : List RChunk) (c : RChunk) : List RChunk :=
  if acc.any (fun e => decide (e.chunkId = c.chunkId)) then acc else acc ++ [c]

def dedupGo (acc : List RChunk) : List RChunk → List RChunk
  | [] => acc
  | c :: cs => dedupGo (dedupStep acc c) cs

/-- The candidate aggregation of `get_context_for_project`: merge each call's
results (the per-search-query calls followed by the optional synthesis-query
call) into the accumulator, deduplicating by `chunk_id`. -/
def aggregateDedup (results : List (List RChunk)) : List RChunk :=
  results.foldl dedupGo []

/-- The candidate aggregation of `get_context_for_project_v2`: plain
`all_chunks.extend(chunks)` per query, with no deduplication. -/
def aggregateConcat (results : List (List RChunk)) : List RChunk :=
  results.foldl (fun acc qr => acc ++ qr) []

/-- The document-identity filter of
`get_context_for_project_with_selected_documents` (and of
`fetch_document_chunks_from_selected_documents`): direct equality with
`document_id` or `source`, then per selected id: containment of the selected
id in `document_id`/`source`, reverse containment of `document_id` in the
selected id, or equality of `document_id` basenames.  Empty fields are falsy
and never match. -/
def isMatchSelected (selected : List Text) (docId source : Text) : Bool :=
  if docId ≠ [] ∧ docId ∈ selected then true
  else if source ≠ [] ∧ source ∈ selected then true
  else
    selected.any fun sid =>
      if (docId ≠ [] ∧ containsSub docId sid) ∨
          (source ≠ [] ∧ containsSub source sid) then true
      else if docId ≠ [] ∧ containsSub sid docId then true
      else decide (docId ≠ [] ∧ pyBasename docId = pyBasename sid)

/-- Modelled from the spec's words for §4.5 (the three-tier fuzzy match), for
comparison with `isMatchSelected`: exact equality, substring containment in
either direction between a selected id and the candidate's id/source, or
equality of path basenames. -/
def specMatchesSelected (selected : List Text) (docId source : Text) : Bool :=
  selected.any fun sid =>
    decide (sid = docId) || decide (sid = source) ||
    containsSub docId sid || containsSub sid docId ||
    containsSub source sid || containsSub sid source ||
    decide (pyBasename docId = pyBasename sid) ||
    decide (pyBasename source = pyBasename sid)

/-- The per-chunk similarity assignment of `rank_chunks_by_relevance`: keep an
existing score; otherwise compute `calculate_similarity` against a present,
truthy (non-empty) embedding; otherwise assign the default low score `0.1`. -/
def ensureSimilarity (cos : List ℚ → List ℚ → ℚ) (queryEmbedding : List PyVal)
    (c : RChunk) : RChunk :=
  if c.similarity.isSome then c
  else
    match c.embedding with
    | some e =>
      if e ≠ [] then
        { c with similarity := some (calculate_similarity cos queryEmbedding e) }
      else { c with similarity := some (1 / 10) }
    | none => { c with similarity := some (1 / 10) }

/-- `rank_chunks_by_relevance(chunks, query)`: assign similarities, then sort
descending by `similarity` (Python's stable `sorted` with `reverse=True`). -/
def rank_chunks_by_relevance (cos : List ℚ → List ℚ → ℚ)
    (queryEmbedding : List PyVal) (chunks : List RChunk) : List RChunk :=
  (chunks.map (ensureSimilarity cos queryEmbedding)).mergeSort
    (fun a b => (b.similarity.getD 0) ≤ (a.similarity.getD 0))

/-- The token estimate of `select_top_chunks`: `len(chunk_text) // 4`. -/
def tokenEstimate (c : RChunk) : Nat :=
  c.rawText.length / 4

/-- `select_top_chunks(chunks, max_tokens)` from `document_service.py`:
greedily accept ranked chunks, stopping before a chunk that would push the
running estimate over `max_tokens` — unless nothing has been selected yet. -/
def select_top_chunks (maxTokens : Nat) : List RChunk → List RChunk × Nat :=
  go [] 0 0
where
  go (acc : List RChunk) (total count : Nat) : List RChunk → List RChunk × Nat
    | [] => (acc, count)
    | c :: cs =>
      if total + tokenEstimate c > maxTokens ∧ acc ≠ [] then (acc, count)
      else go (acc ++ [c]) (total + tokenEstimate c) (count + 1) cs

end DocumentService

namespace QueryReformulation

/-- `generate_query_reformulation(prompt)`: the external Gemini call is the
collaborator `gen` (`none` models the collaborator raising); on an exception
the function returns `""`, otherwise `response.text.strip()`. -/
def generate_query_reformulation (gen : Option Text) : Text :=
  match gen with
  | none => []
  | some s => pyStrip s

/-- The built-in backup reformulations of `generate_search_queries`. -/
def backupQueries : List Text :=
  ["adolescents \"social media\" depression relationship".data,
   "\"teenagers\" \"social networking sites\" \"mental health\"".data]

/-- `"social media" in original_query.lower() and "depression" in
original_query.lower()`. -/
def topicMatch (originalQuery : Text) : Bool :=
  containsSub (lowerText originalQuery) "social media".data &&
    containsSub (lowerText originalQuery) "depression".data

/-- The backup loop: append each backup query while it is absent and the list
still holds fewer than `num_queries - 1` entries. -/
def addBackups (numQueries : Int) (rq : List Text) : List Text :=
  backupQueries.foldl
    (fun acc bq =>
      if bq ∉ acc ∧ (acc.length : Int) < numQueries - 1 then acc ++ [bq]
      else acc)
    rq

/-- The parsed reformulation lines: `[q.strip() for q in response.split('\n')
if q.strip()]`. -/
def parsedQueries (gen : Option Text) : List Text :=
  ((splitOnNL (generate_query_reformulation gen)).map pyStrip).filter (· ≠ [])

/-- `result_queries` after the truncation to `num_queries - 1` entries and the
conditional backup insertion. -/
def resultAfterBackups (originalQuery : Text) (numQueries : Int)
    (queries : List Text) : List Text :=
  if pySliceStop queries (numQueries - 1) = [] ∨
      ((pySliceStop queries (numQueries - 1)).length : Int) < numQueries - 1
  then
    if topicMatch originalQuery then
      addBackups numQueries (pySliceStop queries (numQueries - 1))
    else pySliceStop queries (numQueries - 1)
  else pySliceStop queries (numQueries - 1)

/-- `result_queries` after ensuring the original query is included. -/
def withOriginal (originalQuery : Text) (rq : List Text) : List Text :=
  if originalQuery ∈ rq then rq else rq ++ [originalQuery]

/-- `generate_search_queries(original_query, num_queries)` from
`backend/app/services/query_reformulation.py` (the `project_info` argument
only affects the prompt sent to `gen`). -/
def generate_search_queries (gen : Option Text) (originalQuery : Text)
    (numQueries : Int) : List Text :=
  pySliceStop
    (withOriginal originalQuery
      (resultAfterBackups originalQuery numQueries (parsedQueries gen)))
    numQueries

end QueryReformulation

/-! ## Helper definitions used by the verification -/

/-- A concrete token counter (character count) used to instantiate the
abstract tokenizer in concrete evaluations. -/
def tcLen : Text → Nat := fun t => t.length

/-- A concrete token counter (count of non-whitespace characters): it is
subadditive, counts a space as zero and never grows under stripping, as the
shared-tokenizer hypotheses require. -/
def countNonWS (t : Text) : Nat := (t.filter (fun c => !(isWS c))).length

/-- A stand-in for the external floating-point cosine kernel. -/
def cosZero : List ℚ → List ℚ → ℚ := fun _ _ => 0

namespace Chunker4

/-- Chunk spans starting at or after `lo`, strictly increasing and pairwise
non-overlapping in emission order. -/
def WellSpaced : Int → List Chunk4 → Prop
  | _, [] => True
  | lo, c :: cs =>
    lo ≤ c.startIndex ∧ c.startIndex < c.endIndex ∧ WellSpaced c.endIndex cs

/-- As `WellSpaced`, additionally bounding the final cursor `hi`. -/
def WellSpacedTo : Int → List Chunk4 → Int → Prop
  | lo, [], hi => lo ≤ hi
  | lo, c :: cs, hi =>
    lo ≤ c.startIndex ∧ c.startIndex < c.endIndex ∧ WellSpacedTo c.endIndex cs hi

/-- Specification of the text built by `concatenate_page_texts`. -/
def buildText : List Page → Text
  | [] => []
  | p :: ps => p.text ++ ('\n' :: ['\n']) ++ buildText ps

/-- Specification of the index list built by `concatenate_page_texts`. -/
def buildIdx : List Page → Nat → List PageIndex
  | [], _ => []
  | p :: ps, cur =>
    ⟨p.pageId, cur, cur + p.text.length + 2⟩ ::
      buildIdx ps (cur + p.text.length + 2)

end Chunker4

namespace PDFChunker

open Chunker4 (Table Page PageIndex)

/-- The effect of `process_tables` on one chunk for one page's tables. -/
def foldBind (pi' : PageIndex) (ts : List Table) (c : PChunk) : PChunk :=
  ts.foldl (fun a t => bindOne pi' t a) c

/-- The effect of `process_tables` on one chunk for one page. -/
def pageBind (pageIndices : List PageIndex) (p : Page) (c : PChunk) : PChunk :=
  match pageIndices.find? (fun e => e.pageId == p.pageId) with
  | none => c
  | some pi' => if p.tables = [] then c else foldBind pi' p.tables c

/-- The effect of `process_tables` on one chunk for the whole document. -/
def docBind (pageIndices : List PageIndex) : List Page → PChunk → PChunk
  | [], c => c
  | p :: ps, c => docBind pageIndices ps (pageBind pageIndices p c)

/-- A chunk already carries the `TABLE {id}:` marker of every table of every
page whose range overlaps it. -/
def TableSat (pageIndices : List PageIndex) (pages : List Page)
    (c : PChunk) : Prop :=
  ∀ p ∈ pages, ∀ pi',
    pageIndices.find? (fun e => e.pageId == p.pageId) = some pi' →
    p.tables ≠ [] → ∀ t ∈ p.tables,
    (c.startIndex < (pi'.endIndex : Int) ∧ (pi'.startIndex : Int) < c.endIndex) →
    containsSub c.text (tableKey t) = true

end PDFChunker

namespace DocumentService

/-- A retrieval candidate for the aggregation examples. -/
def exCand (id txt : String) : RChunk :=
  ⟨some id.data, txt.data, none, none, [], []⟩

/-- Three per-query result lists of two candidates each, with the chunk id
`"A"` shared between the first two queries (the spec's 5-not-6 scenario). -/
def c4Results : List (List RChunk) :=
  [[exCand "A" "t1", exCand "B" "t2"],
   [exCand "A" "t1dup", exCand "C" "t3"],
   [exCand "D" "t4", exCand "E" "t5"]]

end DocumentService

/-! ## General lemmas about the text primitives -/

theorem isPrefixOf_self_append (k r : Text) : k.isPrefixOf (k ++ r) = true := by
  induction k with
  | nil => simp [List.isPrefixOf]
  | cons a t ih => simp [List.isPrefixOf, ih]

theorem isPrefixOf_trans {a b c : Text} (h1 : a.isPrefixOf b = true)
    (h2 : b.isPrefixOf c = true) : a.isPrefixOf c = true := by
  induction a generalizing b c with
  | nil => simp [List.isPrefixOf]
  | cons x xs ih =>
    cases b with
    | nil => simp [List.isPrefixOf] at h1
    | cons y ys =>
      cases c with
      | nil => simp [List.isPrefixOf] at h2
      | cons z zs =>
        simp only [List.isPrefixOf, Bool.and_eq_true, beq_iff_eq] at h1 h2 ⊢
        exact ⟨h1.1.trans h2.1, ih h1.2 h2.2⟩

theorem isPrefixOf_append_right {a b : Text} (u : Text)
    (h : a.isPrefixOf b = true) : a.isPrefixOf (b ++ u) = true := by
  induction a generalizing b with
  | nil => simp [List.isPrefixOf]
  | cons x xs ih =>
    cases b with
    | nil => simp [List.isPrefixOf] at h
    | cons y ys =>
      simp only [List.isPrefixOf, Bool.and_eq_true, beq_iff_eq,
        List.cons_append] at h ⊢
      exact ⟨h.1, ih h.2⟩

theorem containsSub_iff {t k : Text} :
    containsSub t k = true ↔
      ∃ i, i ≤ t.length ∧ k.isPrefixOf (t.drop i) = true := by
  simp [containsSub, List.any_eq_true, List.mem_range, Nat.lt_succ_iff]

theorem containsSub_append_right {t k : Text} (u : Text)
    (h : containsSub t k = true) : containsSub (t ++ u) k = true := by
  rcases containsSub_iff.mp h with ⟨i, hi, hp⟩
  refine containsSub_iff.mpr ⟨i, ?_, ?_⟩
  · simp only [List.length_append]; omega
  · rw [List.drop_append_of_le_length hi]
    exact isPrefixOf_append_right u hp

theorem containsSub_of_isPrefixOf_right {a b k : Text}
    (h : k.isPrefixOf b = true) : containsSub (a ++ b) k = true := by
  refine containsSub_iff.mpr ⟨a.length, by simp, ?_⟩
  rw [List.drop_left]
  exact h

theorem containsSub_mono_key {t k k₀ : Text} (hk : k₀.isPrefixOf k = true)
    (h : containsSub t k = true) : containsSub t k₀ = true := by
  rcases containsSub_iff.mp h with ⟨i, hi, hp⟩
  exact containsSub_iff.mpr ⟨i, hi, isPrefixOf_trans hk hp⟩

theorem pyStrip_nil : pyStrip [] = [] := rfl

/-- `l.isPrefixOf l`. -/
theorem isPrefixOf_refl (k : Text) : k.isPrefixOf k = true := by
  have h := isPrefixOf_self_append k []
  rwa [List.append_nil] at h

/-- Stripping a text that begins and ends with non-whitespace characters keeps
its first block intact: the key remains a prefix. -/
theorem isPrefixOf_pyStrip_of_ends {key x : Text}
    (hhead : ∃ c k', key = c :: k' ∧ isWS c = false)
    (hlast : ∃ p c, key = p ++ [c] ∧ isWS c = false) :
    key.isPrefixOf (pyStrip (key ++ x)) = true := by
  obtain ⟨c, k', hk, hc⟩ := hhead
  obtain ⟨p, cl, hkl, hcl⟩ := hlast
  have hdw : (key ++ x).dropWhile isWS = key ++ x := by
    rw [hk]
    simp [List.dropWhile_cons, hc]
  unfold pyStrip
  rw [hdw]
  unfold dropTrailingWS
  have harg : (key ++ x).reverse = x.reverse ++ (cl :: p.reverse) := by
    rw [hkl, List.append_assoc, List.reverse_append, List.reverse_append]
    simp
  rw [harg, List.dropWhile_append]
  by_cases hemp : (x.reverse.dropWhile isWS).isEmpty
  · rw [if_pos hemp]
    rw [List.dropWhile_cons, hcl]
    simp only [Bool.false_eq_true, if_neg (by simp : ¬(False))]
    have : (cl :: p.reverse).reverse = p ++ [cl] := by simp
    rw [this, ← hkl]
    exact isPrefixOf_refl key
  · rw [if_neg hemp]
    rw [List.reverse_append]
    have : (cl :: p.reverse).reverse = p ++ [cl] := by simp
    rw [this, ← hkl]
    exact isPrefixOf_self_append key _

/-! ## C3: the budget selector -/

namespace DocumentService

theorem selectGo_ne_nil (maxT : Nat) :
    ∀ (cs acc : List RChunk) (total count : Nat), acc ≠ [] →
      (select_top_chunks.go maxT acc total count cs).1 ≠ [] := by
  intro cs
  induction cs with
  | nil => intro acc total count h; exact h
  | cons c cs ih =>
    intro acc total count h
    rw [select_top_chunks.go]
    by_cases hc : total + tokenEstimate c > maxT ∧ acc ≠ []
    · rw [if_pos hc]; exact h
    · rw [if_neg hc]
      exact ih (acc ++ [c]) _ _ (by simp)

theorem selectGo_bound (maxT : Nat) :
    ∀ (cs acc : List RChunk) (total count : Nat),
      total = (acc.map tokenEstimate).sum → count = acc.length →
      (1 < count → total ≤ maxT) →
      (1 < (select_top_chunks.go maxT acc total count cs).2 →
        (((select_top_chunks.go maxT acc total count cs).1).map
          tokenEstimate).sum ≤ maxT) := by
  intro cs
  induction cs with
  | nil =>
    intro acc total count h1 h2 h3
    rw [select_top_chunks.go]
    intro hcnt
    rw [← h1]
    exact h3 hcnt
  | cons c cs ih =>
    intro acc total count h1 h2 h3
    rw [select_top_chunks.go]
    by_cases hc : total + tokenEstimate c > maxT ∧ acc ≠ []
    · rw [if_pos hc]
      intro hcnt
      rw [← h1]
      exact h3 hcnt
    · rw [if_neg hc]
      refine ih (acc ++ [c]) _ _ ?_ ?_ ?_
      · simp [h1]
      · simp [h2]
      · intro hlt
        rcases Decidable.not_and_iff_or_not.mp hc with hle | hnil
        · omega
        · have : acc = [] := Decidable.not_not.mp hnil
          subst this
          simp at h2
          omega

end DocumentService

/-- C3 — For every non-empty ranked candidate list and every `max_tokens`
budget, `select_top_chunks` returns at least one chunk, and the total of the
selected chunks' token estimates (`len(text) // 4`) exceeds `max_tokens` only
when exactly one chunk was selected. -/
theorem c3_select_top_chunks_budget (maxT : Nat)
    (chunks : List DocumentService.RChunk) (hne : chunks ≠ []) :
    (DocumentService.select_top_chunks maxT chunks).1 ≠ [] ∧
      (1 < (DocumentService.select_top_chunks maxT chunks).2 →
        (((DocumentService.select_top_chunks maxT chunks).1).map
          DocumentService.tokenEstimate).sum ≤ maxT) := by
  cases chunks with
  | nil => exact absurd rfl hne
  | cons c cs =>
    have hstep : DocumentService.select_top_chunks maxT (c :: cs) =
        DocumentService.select_top_chunks.go maxT [c]
          (0 + DocumentService.tokenEstimate c) 1 cs := by
      rw [DocumentService.select_top_chunks, DocumentService.select_top_chunks.go]
      rw [if_neg (by simp)]
      norm_num
    rw [hstep]
    constructor
    · exact DocumentService.selectGo_ne_nil maxT cs [c] _ 1 (by simp)
    · exact DocumentService.selectGo_bound maxT cs [c] _ 1 (by simp) (by simp)
        (by omega)

/-- Witness for `c3_select_top_chunks_budget` at a concrete candidate list. -/
theorem c3_witness :
    ([DocumentService.exCand "A" "xxxxxxxx"] ≠ []) ∧
      ((DocumentService.select_top_chunks 5
          [DocumentService.exCand "A" "xxxxxxxx"]).1 ≠ [] ∧
        (1 < (DocumentService.select_top_chunks 5
            [DocumentService.exCand "A" "xxxxxxxx"]).2 →
          (((DocumentService.select_top_chunks 5
              [DocumentService.exCand "A" "xxxxxxxx"]).1).map
            DocumentService.tokenEstimate).sum ≤ 5)) :=
  ⟨by simp [DocumentService.exCand],
    c3_select_top_chunks_budget 5 _ (by simp [DocumentService.exCand])⟩

/-! ## C8: defensive similarity scoring -/

/-- C8 (amended) — `calculate_similarity` yields the fixed low score `0.1` for
vectors of mismatched dimensions provided both are non-empty and neither
coerces to the all-zero vector (Python returns `0.0` from the earlier
emptiness/zero-vector checks otherwise), and `rank_chunks_by_relevance`
assigns the fixed low score `0.1` to a candidate with no stored similarity and
no (truthy) embedding. -/
theorem c8_amended_low_score_paths :
    (∀ (cos : List ℚ → List ℚ → ℚ) (v1 v2 : List CoreAI.PyVal),
      v1 ≠ [] → v2 ≠ [] →
      (v1.map CoreAI.safe_parse_float).all (· = 0) = false →
      (v2.map CoreAI.safe_parse_float).all (· = 0) = false →
      v1.length ≠ v2.length →
      CoreAI.calculate_similarity cos v1 v2 = 1 / 10) ∧
    (∀ (cos : List ℚ → List ℚ → ℚ) (qe : List CoreAI.PyVal)
        (c : DocumentService.RChunk),
      c.similarity = none → (c.embedding = none ∨ c.embedding = some []) →
      (DocumentService.ensureSimilarity cos qe c).similarity = some (1 / 10)) := by
  constructor
  · intro cos v1 v2 hv1 hv2 hz1 hz2 hlen
    rw [CoreAI.calculate_similarity]
    rw [if_neg (by simp [hv1, hv2])]
    rw [if_neg (by simp [hv1, hv2])]
    rw [if_neg (by simp [hz1, hz2])]
    rw [if_pos (by simpa using hlen)]
  · intro cos qe c hsim hemb
    rcases hemb with h | h
    · simp [DocumentService.ensureSimilarity, hsim, h]
    · simp [DocumentService.ensureSimilarity, hsim, h]

/-- Witness for `c8_amended_low_score_paths` at concrete inputs. -/
theorem c8_witness :
    CoreAI.calculate_similarity cosZero [CoreAI.PyVal.num 1]
        [CoreAI.PyVal.num 1, CoreAI.PyVal.num 2] = 1 / 10 ∧
      (DocumentService.ensureSimilarity cosZero []
        ⟨none, [], none, none, [], []⟩).similarity = some (1 / 10) :=
  ⟨c8_amended_low_score_paths.1 cosZero _ _ (by simp) (by simp)
      (by simp [CoreAI.safe_parse_float])
      (by simp [CoreAI.safe_parse_float]) (by simp),
    c8_amended_low_score_paths.2 cosZero [] _ rfl (Or.inl rfl)⟩

/-- C8 counterexample — two vectors of different dimensions do *not* always
yield `0.1`: when one of them coerces to all zeros, the zero-vector check runs
first and `calculate_similarity` returns `0.0`. -/
theorem c8_counterexample_zero_vector_before_dim_check :
    CoreAI.calculate_similarity cosZero [CoreAI.PyVal.num 0]
        [CoreAI.PyVal.num 1, CoreAI.PyVal.num 2] = 0 ∧
      CoreAI.calculate_similarity cosZero [CoreAI.PyVal.num 0]
        [CoreAI.PyVal.num 1, CoreAI.PyVal.num 2] ≠ 1 / 10 := by
  have h : CoreAI.calculate_similarity cosZero [CoreAI.PyVal.num 0]
      [CoreAI.PyVal.num 1, CoreAI.PyVal.num 2] = 0 := by
    rw [CoreAI.calculate_similarity]
    rw [if_neg (by simp)]
    rw [if_neg (by simp)]
    rw [if_pos (by simp [CoreAI.safe_parse_float])]
  exact ⟨h, by rw [h]; norm_num⟩

/-! ## C5: query fan-out robustness -/

namespace QueryReformulation

theorem pySliceStop_length_le {α} (l : List α) (stop : Int) (h : 0 ≤ stop) :
    ((pySliceStop l stop).length : Int) ≤ stop := by
  unfold pySliceStop
  rw [if_neg (by omega)]
  have h1 : (l.take stop.toNat).length ≤ stop.toNat := by
    rw [List.length_take]
    exact Nat.min_le_left _ _
  omega

theorem pySliceStop_eq_self {α} (l : List α) (stop : Int)
    (h : (l.length : Int) ≤ stop) (h0 : 0 ≤ stop) : pySliceStop l stop = l := by
  unfold pySliceStop
  rw [if_neg (by omega)]
  exact List.take_of_length_le (by omega)

theorem addBackups_length (n : Int) (l : List Text)
    (h : (l.length : Int) ≤ n - 1) :
    ((addBackups n l).length : Int) ≤ n - 1 := by
  have hstep : ∀ (acc : List Text) (bq : Text), ((acc.length : Int) ≤ n - 1) →
      (((if bq ∉ acc ∧ (acc.length : Int) < n - 1 then acc ++ [bq]
          else acc).length : Int) ≤ n - 1) := by
    intro acc bq hacc
    split_ifs with hc
    · simp only [List.length_append, List.length_cons, List.length_nil]
      push_cast
      omega
    · exact hacc
  simp only [addBackups, backupQueries, List.foldl_cons, List.foldl_nil]
  exact hstep _ _ (hstep _ _ h)

theorem resultAfterBackups_length (orig : Text) (n : Int) (q : List Text)
    (hn : 1 ≤ n) :
    ((resultAfterBackups orig n q).length : Int) ≤ n - 1 := by
  unfold resultAfterBackups
  have hr : ((pySliceStop q (n - 1)).length : Int) ≤ n - 1 :=
    pySliceStop_length_le q (n - 1) (by omega)
  split_ifs with h1 h2
  · exact addBackups_length n _ hr
  · exact hr
  · exact hr

theorem withOriginal_mem (orig : Text) (rq : List Text) :
    orig ∈ withOriginal orig rq := by
  unfold withOriginal
  split_ifs with h
  · exact h
  · simp

theorem withOriginal_length (orig : Text) (rq : List Text) (n : Int)
    (h : (rq.length : Int) ≤ n - 1) :
    ((withOriginal orig rq).length : Int) ≤ n := by
  unfold withOriginal
  split_ifs with hc
  · omega
  · simp only [List.length_append, List.length_cons, List.length_nil]
    push_cast
    omega

end QueryReformulation

/-- C5 (amended) — For `num_queries ≥ 1`, `generate_search_queries` returns at
most `num_queries` queries and always includes the original query; when the
generation collaborator throws (modelled as `gen = none`, which the inner
`except` turns into an empty response) and the original query does not match
the built-in social-media/depression backup topic, the result is exactly
`[original_query]`. -/
theorem c5_amended_generate_search_queries (gen : Option Text) (orig : Text)
    (n : Int) (hn : 1 ≤ n) :
    ((QueryReformulation.generate_search_queries gen orig n).length : Int) ≤ n ∧
      orig ∈ QueryReformulation.generate_search_queries gen orig n ∧
      (gen = none → QueryReformulation.topicMatch orig = false →
        QueryReformulation.generate_search_queries gen orig n = [orig]) := by
  have hr2 := QueryReformulation.resultAfterBackups_length orig n
    (QueryReformulation.parsedQueries gen) hn
  have hr3 := QueryReformulation.withOriginal_length orig _ n hr2
  have heq : QueryReformulation.generate_search_queries gen orig n =
      QueryReformulation.withOriginal orig
        (QueryReformulation.resultAfterBackups orig n
          (QueryReformulation.parsedQueries gen)) := by
    unfold QueryReformulation.generate_search_queries
    exact QueryReformulation.pySliceStop_eq_self _ n hr3 (by omega)
  refine ⟨?_, ?_, ?_⟩
  · rw [heq]; exact hr3
  · rw [heq]; exact QueryReformulation.withOriginal_mem orig _
  · intro hgen htopic
    subst hgen
    have hq : QueryReformulation.parsedQueries none = [] := rfl
    have hback : QueryReformulation.resultAfterBackups orig n [] = [] := by
      unfold QueryReformulation.resultAfterBackups
      have hsl : pySliceStop ([] : List Text) (n - 1) = [] := by
        unfold pySliceStop
        split_ifs <;> simp
      rw [hsl, if_pos (Or.inl rfl), htopic, if_neg (by simp)]
    rw [heq, hq, hback]
    unfold QueryReformulation.withOriginal
    rw [if_neg (by simp)]
    simp

/-- Witness for `c5_amended_generate_search_queries`: a throwing collaborator
with `num_queries = 3` yields exactly the original query. -/
theorem c5_witness :
    ((QueryReformulation.generate_search_queries none "q".data 3).length : Int) ≤ 3 ∧
      "q".data ∈ QueryReformulation.generate_search_queries none "q".data 3 ∧
      (none = (none : Option Text) →
        QueryReformulation.topicMatch "q".data = false →
        QueryReformulation.generate_search_queries none "q".data 3 =
          ["q".data]) :=
  c5_amended_generate_search_queries none "q".data 3 (by decide)

/-- C5 counterexample — with `num_queries = 0` the closing `[:num_queries]`
slice empties the list, so the result does not contain the original query
(Python's `queries[:-1]` slice also keeps generated queries rather than none). -/
theorem c5_counterexample_zero_num_queries :
    QueryReformulation.generate_search_queries (some "a\nb\nc\nd".data)
        "q".data 0 = [] ∧
      "q".data ∉ QueryReformulation.generate_search_queries
        (some "a\nb\nc\nd".data) "q".data 0 := by
  constructor
  · decide
  · decide

/-! ## C4: candidate aggregation and dedup -/

namespace DocumentService

theorem dedupGo_find? (id : Option Text) :
    ∀ (cs acc : List RChunk),
      (dedupGo acc cs).find? (fun e => decide (e.chunkId = id)) =
        ((acc.find? (fun e => decide (e.chunkId = id))).or
          (cs.find? (fun e => decide (e.chunkId = id)))) := by
  intro cs
  induction cs with
  | nil => intro acc; simp [dedupGo]
  | cons c cs ih =>
    intro acc
    rw [dedupGo, ih]
    unfold dedupStep
    by_cases hany : acc.any (fun e => decide (e.chunkId = c.chunkId)) = true
    · rw [if_pos hany]
      by_cases hc : c.chunkId = id
      · have hsome : (acc.find? (fun e => decide (e.chunkId = id))).isSome := by
          rw [List.find?_isSome]
          rcases List.any_eq_true.mp hany with ⟨e, he, hpe⟩
          refine ⟨e, he, ?_⟩
          have he' : e.chunkId = c.chunkId := of_decide_eq_true hpe
          simp [he', hc]
        obtain ⟨v, hv⟩ := Option.isSome_iff_exists.mp hsome
        rw [hv]
        rfl
      · have hskip : (c :: cs).find? (fun e => decide (e.chunkId = id)) =
            cs.find? (fun e => decide (e.chunkId = id)) := by
          simp [List.find?, hc]
        rw [hskip]
    · rw [if_neg hany, List.find?_append, Option.or_assoc]
      congr 1
      by_cases hc : c.chunkId = id
      · simp [List.find?, hc]
      · simp [List.find?, hc]

theorem dedupGo_countP (id : Option Text) :
    ∀ (cs acc : List RChunk),
      acc.countP (fun e => decide (e.chunkId = id)) ≤ 1 →
      (dedupGo acc cs).countP (fun e => decide (e.chunkId = id)) ≤ 1 := by
  intro cs
  induction cs with
  | nil => intro acc h; exact h
  | cons c cs ih =>
    intro acc h
    rw [dedupGo]
    unfold dedupStep
    by_cases hany : acc.any (fun e => decide (e.chunkId = c.chunkId)) = true
    · rw [if_pos hany]; exact ih acc h
    · rw [if_neg hany]
      refine ih (acc ++ [c]) ?_
      rw [List.countP_append]
      by_cases hc : c.chunkId = id
      · have hzero : acc.countP (fun e => decide (e.chunkId = id)) = 0 := by
          rw [List.countP_eq_zero]
          intro e he
          intro hpe
          have he' : e.chunkId = id := of_decide_eq_true hpe
          apply hany
          rw [List.any_eq_true]
          exact ⟨e, he, decide_eq_true (he'.trans hc.symm)⟩
        rw [hzero]
        simp [List.countP_cons, hc]
      · have : ([c].countP (fun e => decide (e.chunkId = id))) = 0 := by
          simp [List.countP_cons, hc]
        omega

theorem dedupGo_append (l l' : List RChunk) :
    ∀ acc, dedupGo acc (l ++ l') = dedupGo (dedupGo acc l) l' := by
  induction l with
  | nil => intro acc; rfl
  | cons c cs ih => intro acc; rw [List.cons_append, dedupGo, dedupGo, ih]

theorem aggregateDedup_eq_flatten (results : List (List RChunk)) :
    aggregateDedup results = dedupGo [] results.flatten := by
  have hgen : ∀ (rs : List (List RChunk)) (acc : List RChunk),
      rs.foldl dedupGo acc = dedupGo acc rs.flatten := by
    intro rs
    induction rs with
    | nil => intro acc; rfl
    | cons r rs ih =>
      intro acc
      rw [List.foldl_cons, ih, List.flatten_cons, dedupGo_append]
  exact hgen results []
end DocumentService

/-- C4 (amended) — The aggregation loop of `get_context_for_project` keeps at
most one candidate per `chunk_id`, and for every id the kept candidate is the
first occurrence in submission order; on the spec's three-query example it
produces 5 candidates.  (The claim as stated fails for
`get_context_for_project_v2`, which extends without deduplicating — see the
counterexample.) -/
theorem c4_amended_dedup_first_wins :
    (∀ (results : List (List DocumentService.RChunk)) (id : Option Text),
      (DocumentService.aggregateDedup results).countP
        (fun e => decide (e.chunkId = id)) ≤ 1) ∧
    (∀ (results : List (List DocumentService.RChunk)) (id : Option Text),
      (DocumentService.aggregateDedup results).find?
          (fun e => decide (e.chunkId = id)) =
        results.flatten.find? (fun e => decide (e.chunkId = id))) ∧
    ((DocumentService.aggregateDedup DocumentService.c4Results).map
        (fun c => c.chunkId) =
      [some "A".data, some "B".data, some "C".data, some "D".data,
        some "E".data] ∧
      (DocumentService.aggregateDedup DocumentService.c4Results).length = 5) := by
  refine ⟨?_, ?_, ?_⟩
  · intro results id
    rw [DocumentService.aggregateDedup_eq_flatten]
    exact DocumentService.dedupGo_countP id _ [] (by simp)
  · intro results id
    rw [DocumentService.aggregateDedup_eq_flatten,
      DocumentService.dedupGo_find?]
    simp
  · constructor
    · decide
    · decide

/-- C4 counterexample — `get_context_for_project_v2` aggregates with
`all_chunks.extend(chunks)` and no dedup: the spec's three-query example
yields 6 candidates, two of which share chunk id `"A"`. -/
theorem c4_counterexample_v2_aggregation_keeps_duplicates :
    (DocumentService.aggregateConcat DocumentService.c4Results).length = 6 ∧
      1 < (DocumentService.aggregateConcat DocumentService.c4Results).countP
        (fun e => decide (e.chunkId = some "A".data)) := by
  constructor
  · decide
  · decide

/-! ## C9: the document allow-list filter -/

theorem containsSub_self (t : Text) : containsSub t t = true :=
  containsSub_iff.mpr ⟨0, Nat.zero_le _, by simp [isPrefixOf_refl t]⟩

/-- Value of the three-branch conditional inside the filter's per-id loop. -/
theorem ite3_eq_true_iff (P1 P2 P3 : Prop) [Decidable P1] [Decidable P2]
    [Decidable P3] :
    ((if P1 then true else if P2 then true else decide P3) = true) ↔
      (P1 ∨ P2 ∨ P3) := by
  split_ifs with h1 h2
  · simp [h1]
  · simp [h1, h2]
  · simp [h1, h2, decide_eq_true_iff]

/-- C9 (amended) — A candidate passes the selected-documents filter iff some
selected id equals its (non-empty) `document_id` or `source`, or is a
substring of either, or contains the (non-empty) `document_id` as a substring,
or has the same path basename as the (non-empty) `document_id`.  Reverse
containment and basename equality are only tested against `document_id`, not
`source`.  The spec's temp-path scenario passes via substring containment. -/
theorem c9_amended_filter_characterization :
    (∀ (selected : List Text) (docId source : Text),
      DocumentService.isMatchSelected selected docId source = true ↔
        ∃ sid ∈ selected,
          (docId ≠ [] ∧ (docId = sid ∨ containsSub docId sid = true ∨
            containsSub sid docId = true ∨
            pyBasename docId = pyBasename sid)) ∨
          (source ≠ [] ∧ (source = sid ∨ containsSub source sid = true))) ∧
    DocumentService.isMatchSelected ["tmp123abc.pdf".data] []
      "/var/tmp/tmp123abc.pdf".data = true := by
  constructor
  · intro selected docId source
    constructor
    · intro h
      unfold DocumentService.isMatchSelected at h
      split_ifs at h with hA hB
      · exact ⟨docId, hA.2, Or.inl ⟨hA.1, Or.inl rfl⟩⟩
      · exact ⟨source, hB.2, Or.inr ⟨hB.1, Or.inl rfl⟩⟩
      · rcases List.any_eq_true.mp h with ⟨sid, hmem, hf⟩
        rw [ite3_eq_true_iff] at hf
        refine ⟨sid, hmem, ?_⟩
        rcases hf with (⟨hd, hc⟩ | ⟨hs, hc⟩) | h2 | h3
        · exact Or.inl ⟨hd, Or.inr (Or.inl hc)⟩
        · exact Or.inr ⟨hs, Or.inr hc⟩
        · exact Or.inl ⟨h2.1, Or.inr (Or.inr (Or.inl h2.2))⟩
        · exact Or.inl ⟨h3.1, Or.inr (Or.inr (Or.inr h3.2))⟩
    · rintro ⟨sid, hmem, hcase⟩
      unfold DocumentService.isMatchSelected
      split_ifs with hA hB
      · rfl
      · rfl
      · rw [List.any_eq_true]
        refine ⟨sid, hmem, ?_⟩
        rw [ite3_eq_true_iff]
        rcases hcase with ⟨hd, hdis⟩ | ⟨hs, hdis⟩
        · rcases hdis with rfl | hc | hc | hb
          · exact Or.inl (Or.inl ⟨hd, containsSub_self docId⟩)
          · exact Or.inl (Or.inl ⟨hd, hc⟩)
          · exact Or.inr (Or.inl ⟨hd, hc⟩)
          · exact Or.inr (Or.inr ⟨hd, hb⟩)
        · rcases hdis with rfl | hc
          · exact Or.inl (Or.inr ⟨hs, containsSub_self source⟩)
          · exact Or.inl (Or.inr ⟨hs, hc⟩)
  · decide

/-- C9 counterexample — the spec's three-tier description (either-direction
containment and basename equality against `document_id` *or* `source`) accepts
a candidate whose `source` basename equals the selected id's basename, but the
code rejects it: the basename tier only examines `document_id`. -/
theorem c9_counterexample_source_basename_not_matched :
    DocumentService.specMatchesSelected ["/b/x.pdf".data] "docA".data
        "/a/x.pdf".data = true ∧
      DocumentService.isMatchSelected ["/b/x.pdf".data] "docA".data
        "/a/x.pdf".data = false := by
  constructor
  · decide
  · decide

/-! ## C10: page concatenation offsets -/

namespace Chunker4

theorem concat_go_spec :
    ∀ (ps : List Page) (ft : Text) (idx : List PageIndex) (cur : Nat),
      cur = ft.length →
      concatenate_page_texts.go ps ft idx cur =
        (ft ++ buildText ps, idx ++ buildIdx ps cur) := by
  intro ps
  induction ps with
  | nil =>
    intro ft idx cur h
    simp [concatenate_page_texts.go, buildText, buildIdx]
  | cons p ps ih =>
    intro ft idx cur h
    subst h
    rw [concatenate_page_texts.go]
    have hrec := ih (ft ++ (p.text ++ ('\n' :: ['\n'])))
      (idx ++ [PageIndex.mk p.pageId ft.length
        (ft.length + (p.text ++ ('\n' :: ['\n'])).length)])
      (ft.length + (p.text ++ ('\n' :: ['\n'])).length) (by simp)
    rw [hrec]
    simp only [Prod.mk.injEq]
    constructor
    · simp [buildText]
    · simp [buildIdx, List.length_append, Nat.add_assoc]

theorem concat_spec (pages : List Page) :
    concatenate_page_texts pages = (buildText pages, buildIdx pages 0) := by
  have h := concat_go_spec pages [] [] 0 rfl
  simpa [concatenate_page_texts] using h

theorem buildIdx_length : ∀ (ps : List Page) (b : Nat),
    (buildIdx ps b).length = ps.length := by
  intro ps
  induction ps with
  | nil => intro b; rfl
  | cons p ps ih => intro b; simp [buildIdx, ih]

theorem buildIdx_start : ∀ (ps : List Page) (b : Nat) (e : PageIndex),
    (buildIdx ps b)[0]? = some e → e.startIndex = b := by
  intro ps b e h
  cases ps with
  | nil => simp [buildIdx] at h
  | cons p ps =>
    simp [buildIdx] at h
    rw [← h]

theorem buildIdx_consecutive :
    ∀ (ps : List Page) (b : Nat) (i : Nat) (ei ej : PageIndex),
      (buildIdx ps b)[i]? = some ei → (buildIdx ps b)[i + 1]? = some ej →
      ej.startIndex = ei.endIndex := by
  intro ps
  induction ps with
  | nil => intro b i ei ej h1 _; simp [buildIdx] at h1
  | cons p ps ih =>
    intro b i ei ej h1 h2
    cases i with
    | zero =>
      rw [buildIdx] at h1 h2
      simp at h1 h2
      have := buildIdx_start ps (b + p.text.length + 2) ej h2
      rw [this, ← h1]
    | succ i =>
      rw [buildIdx] at h1 h2
      simp at h1 h2
      exact ih _ i ei ej h1 h2

theorem buildIdx_entry :
    ∀ (ps : List Page) (pre : Text) (i : Nat) (p : Page) (e : PageIndex),
      ps[i]? = some p → (buildIdx ps pre.length)[i]? = some e →
      e.endIndex = e.startIndex + p.text.length + 2 ∧
        sliceText (pre ++ buildText ps) e.startIndex e.endIndex =
          p.text ++ ('\n' :: ['\n']) := by
  intro ps
  induction ps with
  | nil => intro pre i p e h1 _; simp at h1
  | cons q qs ih =>
    intro pre i p e h1 h2
    cases i with
    | zero =>
      simp only [List.getElem?_cons_zero, Option.some_inj] at h1
      rw [buildIdx] at h2
      simp only [List.getElem?_cons_zero, Option.some_inj] at h2
      cases h1
      rw [← h2]
      refine ⟨rfl, ?_⟩
      show sliceText (pre ++ buildText (q :: qs)) pre.length
        (pre.length + q.text.length + 2) = q.text ++ ('\n' :: ['\n'])
      rw [buildText]
      unfold sliceText
      rw [List.drop_left]
      have harith : pre.length + q.text.length + 2 - pre.length =
          (q.text ++ ('\n' :: ['\n'])).length := by
        simp
        omega
      rw [harith, List.take_left]
    | succ i =>
      simp only [List.getElem?_cons_succ] at h1
      rw [buildIdx] at h2
      simp only [List.getElem?_cons_succ] at h2
      have hlen : pre.length + q.text.length + 2 =
          (pre ++ q.text ++ ('\n' :: ['\n'])).length := by
        simp
        omega
      rw [hlen] at h2
      have := ih (pre ++ q.text ++ ('\n' :: ['\n'])) i p e h1 h2
      rw [buildText, ← List.append_assoc, ← List.append_assoc]
      exact this

theorem buildIdx_last : ∀ (ps : List Page) (b : Nat) (e : PageIndex),
    (buildIdx ps b).getLast? = some e →
    e.endIndex = b + (buildText ps).length := by
  intro ps
  induction ps with
  | nil => intro b e h; simp [buildIdx] at h
  | cons p ps ih =>
    intro b e h
    cases ps with
    | nil =>
      rw [buildIdx] at h
      simp [buildIdx] at h
      rw [← h]
      simp [buildText]
      omega
    | cons q qs =>
      rw [buildIdx, buildIdx] at h
      have hlast : (buildIdx qs (b + p.text.length + 2 + q.text.length + 2)).getLast?
            = some e →
          e.endIndex = (b + p.text.length + 2 + q.text.length + 2) +
            (buildText qs).length → True := fun _ _ => trivial
      rw [show ∀ (x y : PageIndex) (l : List PageIndex),
          (x :: y :: l).getLast? = (y :: l).getLast? from fun _ _ _ => rfl] at h
      rw [← buildIdx] at h
      have := ih (b + p.text.length + 2) e h
      rw [this]
      simp [buildText]
      omega

end Chunker4

/-- C10 — `concatenate_page_texts` returns `(full_text, page_indices)` with
contiguous entries starting at 0: each entry's `start_index` is the previous
entry's `end_index`, each entry spans its page's text plus the two-character
`"\n\n"` separator, the slice of `full_text` at the entry is exactly that
page's text followed by `"\n\n"`, and the last entry ends at
`len(full_text)`. -/
theorem c10_concatenate_page_texts_offsets (pages : List Chunker4.Page) :
    (Chunker4.concatenate_page_texts pages).2.length = pages.length ∧
    (∀ e, (Chunker4.concatenate_page_texts pages).2[0]? = some e →
      e.startIndex = 0) ∧
    (∀ (i : Nat) (ei ej : Chunker4.PageIndex),
      (Chunker4.concatenate_page_texts pages).2[i]? = some ei →
      (Chunker4.concatenate_page_texts pages).2[i + 1]? = some ej →
      ej.startIndex = ei.endIndex) ∧
    (∀ (i : Nat) (p : Chunker4.Page) (e : Chunker4.PageIndex),
      pages[i]? = some p →
      (Chunker4.concatenate_page_texts pages).2[i]? = some e →
      e.endIndex = e.startIndex + p.text.length + 2 ∧
        sliceText (Chunker4.concatenate_page_texts pages).1 e.startIndex
          e.endIndex = p.text ++ ('\n' :: ['\n'])) ∧
    (∀ e, (Chunker4.concatenate_page_texts pages).2.getLast? = some e →
      e.endIndex = (Chunker4.concatenate_page_texts pages).1.length) := by
  rw [Chunker4.concat_spec]
  refine ⟨Chunker4.buildIdx_length pages 0, ?_, ?_, ?_, ?_⟩
  · intro e h
    exact Chunker4.buildIdx_start pages 0 e h
  · intro i ei ej h1 h2
    exact Chunker4.buildIdx_consecutive pages 0 i ei ej h1 h2
  · intro i p e h1 h2
    have h2' : (Chunker4.buildIdx pages 0)[i]? = some e := h2
    have h3 := Chunker4.buildIdx_entry pages [] i p e h1 h2'
    simpa using h3
  · intro e h
    have h' : (Chunker4.buildIdx pages 0).getLast? = some e := h
    have h3 := Chunker4.buildIdx_last pages 0 e h'
    simpa using h3

/-- Witness for `c10_concatenate_page_texts_offsets` at a two-page document:
the second page's index entry is `[4, 7)` and the slice there is
`"c\n\n"`. -/
theorem c10_witness :
    (7 : Nat) = 4 + "c".data.length + 2 ∧
      sliceText (Chunker4.concatenate_page_texts
          [⟨1, "ab".data, []⟩, ⟨2, "c".data, []⟩]).1 4 7 =
        "c".data ++ ('\n' :: ['\n']) :=
  (c10_concatenate_page_texts_offsets
      [⟨1, "ab".data, []⟩, ⟨2, "c".data, []⟩]).2.2.2.1 1 ⟨2, "c".data, []⟩
    ⟨2, 4, 7⟩ (by decide) (by decide)

/-! ## C7: heading detection and label propagation -/

namespace Chunker4

theorem sentLoop_labels (tc : Text → Nat) (maxT : Nat)
    (p c s : Option Text) :
    ∀ (sents : List Text) (buf : Text) (tok : Nat) (subStart : Int)
      (count : Nat) (cur : Int),
      ∀ ch ∈ (sentLoop tc maxT p c s sents buf tok subStart count cur).1,
        ch.part = p ∧ ch.chapter = c ∧ ch.section' = s := by
  intro sents
  induction sents with
  | nil =>
    intro buf tok subStart count cur ch hch
    rw [sentLoop] at hch
    by_cases h : pyStrip buf ≠ []
    · rw [if_pos h] at hch
      simp only [List.mem_singleton] at hch
      subst hch
      exact ⟨rfl, rfl, rfl⟩
    · rw [if_neg h] at hch
      simp at hch
  | cons sn rest ih =>
    intro buf tok subStart count cur ch hch
    rw [sentLoop] at hch
    by_cases h1 : tok + tc sn ≤ maxT
    · rw [if_pos h1] at hch
      exact ih _ _ _ _ _ ch hch
    · rw [if_neg h1] at hch
      by_cases h2 : pyStrip buf ≠ []
      · rw [if_pos h2] at hch
        dsimp only at hch
        simp only [List.mem_cons] at hch
        rcases hch with rfl | hch
        · exact ⟨rfl, rfl, rfl⟩
        · exact ih _ _ _ _ _ ch hch
      · rw [if_neg h2] at hch
        exact ih _ _ _ _ _ ch hch

theorem parLoop_labels (tc : Text → Nat) (maxT : Nat) (p c s : Option Text)
    (full : Text) :
    ∀ (paras : List Text) (cur : Int),
      ∀ ch ∈ parLoop tc maxT p c s full paras cur,
        ch.part = p ∧ ch.chapter = c ∧ ch.section' = s := by
  intro paras
  induction paras with
  | nil => intro cur ch hch; simp [parLoop] at hch
  | cons para rest ih =>
    intro cur ch hch
    rw [parLoop] at hch
    by_cases h1 : pyStrip para = []
    · rw [if_pos h1] at hch
      exact ih _ ch hch
    · rw [if_neg h1] at hch
      by_cases h2 : tc (pyStrip para) ≤ maxT
      · rw [if_pos h2] at hch
        simp only [List.mem_cons] at hch
        rcases hch with rfl | hch
        · exact ⟨rfl, rfl, rfl⟩
        · exact ih _ ch hch
      · rw [if_neg h2] at hch
        dsimp only at hch
        simp only [List.mem_append] at hch
        rcases hch with hch | hch
        · exact sentLoop_labels tc maxT p c s _ _ _ _ _ _ ch hch
        · exact ih _ ch hch

theorem split_labels (tc : Text → Nat) (maxT : Nat) (text : Text)
    (p c s : Option Text) (si : Int) (full : Text) :
    ∀ ch ∈ split_into_paragraph_chunks tc maxT text p c s si full,
      ch.part = p ∧ ch.chapter = c ∧ ch.section' = s := by
  intro ch hch
  exact parLoop_labels tc maxT p c s full _ si ch hch

end Chunker4

/-- C7 — During segmentation: a Part heading sets `part` to the stripped line
and clears `chapter` and `section`; a Chapter heading sets `chapter`, clears
`section` and keeps `part`; a Section heading sets `section` and keeps `part`
and `chapter`; every chunk emitted by `split_into_paragraph_chunks` carries
exactly the labels it was called with; and every chunk a heading line flushes
carries the pre-transition labels. -/
theorem c7_heading_state_transitions :
    (∀ (tc : Text → Nat) (maxT : Nat) (full : Text) (st : Chunker4.SegState)
        (line : Text), Chunker4.isPartLine (pyStrip line) = true →
      (Chunker4.segStep tc maxT full st line).part = some (pyStrip line) ∧
        (Chunker4.segStep tc maxT full st line).chapter = none ∧
        (Chunker4.segStep tc maxT full st line).section' = none) ∧
    (∀ (tc : Text → Nat) (maxT : Nat) (full : Text) (st : Chunker4.SegState)
        (line : Text), Chunker4.isPartLine (pyStrip line) = false →
      Chunker4.isChapterLine (pyStrip line) = true →
      (Chunker4.segStep tc maxT full st line).chapter = some (pyStrip line) ∧
        (Chunker4.segStep tc maxT full st line).section' = none ∧
        (Chunker4.segStep tc maxT full st line).part = st.part) ∧
    (∀ (tc : Text → Nat) (maxT : Nat) (full : Text) (st : Chunker4.SegState)
        (line : Text), Chunker4.isPartLine (pyStrip line) = false →
      Chunker4.isChapterLine (pyStrip line) = false →
      (Chunker4.isSectionLine (pyStrip line) &&
        decide (10 < (pyStrip line).length) &&
        !("PART ".data.isPrefixOf (pyStrip line))) = true →
      (Chunker4.segStep tc maxT full st line).section' = some (pyStrip line) ∧
        (Chunker4.segStep tc maxT full st line).part = st.part ∧
        (Chunker4.segStep tc maxT full st line).chapter = st.chapter) ∧
    (∀ (tc : Text → Nat) (maxT : Nat) (text : Text) (p c s : Option Text)
        (si : Int) (full : Text),
      ∀ ch ∈ Chunker4.split_into_paragraph_chunks tc maxT text p c s si full,
        ch.part = p ∧ ch.chapter = c ∧ ch.section' = s) ∧
    (∀ (tc : Text → Nat) (maxT : Nat) (full : Text) (st : Chunker4.SegState)
        (line : Text),
      ∀ ch ∈ (Chunker4.segStep tc maxT full st line).chunks,
        ch ∈ st.chunks ∨
          (ch.part = st.part ∧ ch.chapter = st.chapter ∧
            ch.section' = st.section')) := by
  refine ⟨?_, ?_, ?_, ?_, ?_⟩
  · intro tc maxT full st line h
    unfold Chunker4.segStep
    rw [if_pos h]
    exact ⟨rfl, rfl, rfl⟩
  · intro tc maxT full st line h1 h2
    unfold Chunker4.segStep
    rw [if_neg (by simp [h1]), if_pos h2]
    exact ⟨rfl, rfl, rfl⟩
  · intro tc maxT full st line h1 h2 h3
    unfold Chunker4.segStep
    rw [if_neg (by simp [h1]), if_neg (by simp [h2]), if_pos h3]
    exact ⟨rfl, rfl, rfl⟩
  · intro tc maxT text p c s si full
    exact Chunker4.split_labels tc maxT text p c s si full
  · intro tc maxT full st line ch hch
    unfold Chunker4.segStep at hch
    dsimp only at hch
    have hflush : ch ∈ st.chunks ++
        (if st.curText ≠ [] then
          Chunker4.split_into_paragraph_chunks tc maxT st.curText st.part
            st.chapter st.section' st.curStart full
         else []) →
        ch ∈ st.chunks ∨
          (ch.part = st.part ∧ ch.chapter = st.chapter ∧
            ch.section' = st.section') := by
      intro hm
      simp only [List.mem_append] at hm
      rcases hm with hm | hm
      · exact Or.inl hm
      · split_ifs at hm with hcur
        · exact Or.inr
            (Chunker4.split_labels tc maxT st.curText st.part st.chapter
              st.section' st.curStart full ch hm)
        · simp at hm
    by_cases hp : Chunker4.isPartLine (pyStrip line) = true
    · rw [if_pos hp] at hch
      exact hflush hch
    · rw [if_neg hp] at hch
      by_cases hc : Chunker4.isChapterLine (pyStrip line) = true
      · rw [if_pos hc] at hch
        exact hflush hch
      · rw [if_neg hc] at hch
        by_cases hs : (Chunker4.isSectionLine (pyStrip line) &&
            decide (10 < (pyStrip line).length) &&
            !("PART ".data.isPrefixOf (pyStrip line))) = true
        · rw [if_pos hs] at hch
          exact hflush hch
        · rw [if_neg hs] at hch
          exact Or.inl hch

/-- Witness for `c7_heading_state_transitions` at concrete heading lines. -/
theorem c7_witness :
    ((Chunker4.segStep tcLen 700 [] ⟨some "P0".data, some "C0".data,
        some "S0".data, "body".data, 0, []⟩ "PART II INTRO\n".data).part =
      some (pyStrip "PART II INTRO\n".data) ∧
      (Chunker4.segStep tcLen 700 [] ⟨some "P0".data, some "C0".data,
        some "S0".data, "body".data, 0, []⟩
          "PART II INTRO\n".data).chapter = none ∧
      (Chunker4.segStep tcLen 700 [] ⟨some "P0".data, some "C0".data,
        some "S0".data, "body".data, 0, []⟩
          "PART II INTRO\n".data).section' = none) ∧
    ((Chunker4.segStep tcLen 700 [] ⟨some "P0".data, some "C0".data,
        some "S0".data, "body".data, 0, []⟩
          "CHAPTER 1 BEGINNINGS\n".data).chapter =
      some (pyStrip "CHAPTER 1 BEGINNINGS\n".data) ∧
      (Chunker4.segStep tcLen 700 [] ⟨some "P0".data, some "C0".data,
        some "S0".data, "body".data, 0, []⟩
          "CHAPTER 1 BEGINNINGS\n".data).section' = none ∧
      (Chunker4.segStep tcLen 700 [] ⟨some "P0".data, some "C0".data,
        some "S0".data, "body".data, 0, []⟩
          "CHAPTER 1 BEGINNINGS\n".data).part =
        (⟨some "P0".data, some "C0".data, some "S0".data, "body".data, 0,
          []⟩ : Chunker4.SegState).part) ∧
    ((Chunker4.segStep tcLen 700 [] ⟨some "P0".data, some "C0".data,
        some "S0".data, "body".data, 0, []⟩
          "SOME ALL CAPS LINE\n".data).section' =
      some (pyStrip "SOME ALL CAPS LINE\n".data) ∧
      (Chunker4.segStep tcLen 700 [] ⟨some "P0".data, some "C0".data,
        some "S0".data, "body".data, 0, []⟩
          "SOME ALL CAPS LINE\n".data).part =
        (⟨some "P0".data, some "C0".data, some "S0".data, "body".data, 0,
          []⟩ : Chunker4.SegState).part ∧
      (Chunker4.segStep tcLen 700 [] ⟨some "P0".data, some "C0".data,
        some "S0".data, "body".data, 0, []⟩
          "SOME ALL CAPS LINE\n".data).chapter =
        (⟨some "P0".data, some "C0".data, some "S0".data, "body".data, 0,
          []⟩ : Chunker4.SegState).chapter) :=
  ⟨c7_heading_state_transitions.1 tcLen 700 [] _ _ (by decide),
    c7_heading_state_transitions.2.1 tcLen 700 [] _ _ (by decide) (by decide),
    c7_heading_state_transitions.2.2.1 tcLen 700 [] _ _ (by decide)
      (by decide) (by decide)⟩

/-! ## C6: table binding idempotency -/

namespace PDFChunker

open Chunker4 (Table Page PageIndex)

theorem bindOne_startIndex (pi' : PageIndex) (t : Table) (c : PChunk) :
    (bindOne pi' t c).startIndex = c.startIndex := by
  unfold bindOne
  split_ifs <;> rfl

theorem bindOne_endIndex (pi' : PageIndex) (t : Table) (c : PChunk) :
    (bindOne pi' t c).endIndex = c.endIndex := by
  unfold bindOne
  split_ifs <;> rfl

theorem bindOne_text_append (pi' : PageIndex) (t : Table) (c : PChunk) :
    ∃ u, (bindOne pi' t c).text = c.text ++ u := by
  unfold bindOne
  split_ifs
  · exact ⟨('\n' :: ['\n']) ++ renderTable t, List.append_assoc _ _ _⟩
  · exact ⟨('\n' :: ['\n']) ++ renderTable t, List.append_assoc _ _ _⟩
  · exact ⟨[], (List.append_nil _).symm⟩
  · exact ⟨[], (List.append_nil _).symm⟩

theorem bindOne_mono {k : Text} (pi' : PageIndex) (t : Table) (c : PChunk)
    (h : containsSub c.text k = true) :
    containsSub (bindOne pi' t c).text k = true := by
  obtain ⟨u, hu⟩ := bindOne_text_append pi' t c
  rw [hu]
  exact containsSub_append_right u h

theorem tableKey_eq_cons (t : Table) :
    tableKey t = 'T' :: (("ABLE ".data ++ t.tableId) ++ [':']) := rfl

theorem tableKey_eq_concat (t : Table) :
    tableKey t = ("TABLE ".data ++ t.tableId) ++ [':'] := rfl

theorem tableKey_isPrefixOf_renderTable (t : Table) :
    (tableKey t).isPrefixOf (renderTable t) = true := by
  have harg : "TABLE ".data ++ t.tableId ++ [':', '\n'] ++
      (t.data.foldl (fun acc row =>
        acc ++ (List.intercalate " | ".data row) ++ ['\n']) []) =
      tableKey t ++ (['\n'] ++
        (t.data.foldl (fun acc row =>
          acc ++ (List.intercalate " | ".data row) ++ ['\n']) [])) := by
    rw [tableKey_eq_concat]
    simp [List.append_assoc]
  rw [renderTable, harg]
  refine isPrefixOf_pyStrip_of_ends ?_ ?_
  · exact ⟨'T', _, tableKey_eq_cons t, by decide⟩
  · exact ⟨_, ':', tableKey_eq_concat t, by decide⟩

theorem tableWord_isPrefixOf_tableKey (t : Table) :
    "TABLE".data.isPrefixOf (tableKey t) = true := by
  have h : tableKey t = "TABLE".data ++ ([' '] ++ t.tableId ++ [':']) := by
    rw [tableKey_eq_concat]
    have : "TABLE ".data = "TABLE".data ++ [' '] := rfl
    rw [this]
    simp [List.append_assoc]
  rw [h]
  exact isPrefixOf_self_append _ _

theorem bindOne_key (pi' : PageIndex) (t : Table) (c : PChunk)
    (hov : c.startIndex < (pi'.endIndex : Int) ∧
      (pi'.startIndex : Int) < c.endIndex) :
    containsSub (bindOne pi' t c).text (tableKey t) = true := by
  unfold bindOne
  rw [if_pos hov]
  split_ifs with g1 g2
  · show containsSub (c.text ++ ('\n' :: ['\n']) ++ renderTable t)
      (tableKey t) = true
    exact containsSub_of_isPrefixOf_right (tableKey_isPrefixOf_renderTable t)
  · show containsSub (c.text ++ ('\n' :: ['\n']) ++ renderTable t)
      (tableKey t) = true
    exact containsSub_of_isPrefixOf_right (tableKey_isPrefixOf_renderTable t)
  · simp only [Bool.not_eq_true'] at g2
    simp at g2
    exact g2

theorem bindOne_id (pi' : PageIndex) (t : Table) (c : PChunk)
    (hkey : containsSub c.text (tableKey t) = true) :
    bindOne pi' t c = c := by
  unfold bindOne
  split_ifs with hov g1 g2
  · exfalso
    have hw : containsSub c.text "TABLE".data = true :=
      containsSub_mono_key (tableWord_isPrefixOf_tableKey t) hkey
    rw [hw] at g1
    simp at g1
  · exfalso
    rw [hkey] at g2
    simp at g2
  · rfl
  · rfl

theorem foldBind_startIndex (pi' : PageIndex) :
    ∀ (ts : List Table) (c : PChunk),
      (foldBind pi' ts c).startIndex = c.startIndex := by
  intro ts
  induction ts with
  | nil => intro c; rfl
  | cons t ts ih =>
    intro c
    show (foldBind pi' ts (bindOne pi' t c)).startIndex = c.startIndex
    rw [ih, bindOne_startIndex]

theorem foldBind_endIndex (pi' : PageIndex) :
    ∀ (ts : List Table) (c : PChunk),
      (foldBind pi' ts c).endIndex = c.endIndex := by
  intro ts
  induction ts with
  | nil => intro c; rfl
  | cons t ts ih =>
    intro c
    show (foldBind pi' ts (bindOne pi' t c)).endIndex = c.endIndex
    rw [ih, bindOne_endIndex]

theorem foldBind_mono {k : Text} (pi' : PageIndex) :
    ∀ (ts : List Table) (c : PChunk), containsSub c.text k = true →
      containsSub (foldBind pi' ts c).text k = true := by
  intro ts
  induction ts with
  | nil => intro c h; exact h
  | cons t ts ih =>
    intro c h
    exact ih (bindOne pi' t c) (bindOne_mono pi' t c h)

theorem foldBind_key (pi' : PageIndex) :
    ∀ (ts : List Table) (c : PChunk),
      (c.startIndex < (pi'.endIndex : Int) ∧
        (pi'.startIndex : Int) < c.endIndex) →
      ∀ t ∈ ts, containsSub (foldBind pi' ts c).text (tableKey t) = true := by
  intro ts
  induction ts with
  | nil => intro c _ t ht; simp at ht
  | cons t' ts ih =>
    intro c hov t ht
    simp only [List.mem_cons] at ht
    rcases ht with rfl | ht
    · exact foldBind_mono pi' ts (bindOne pi' t c) (bindOne_key pi' t c hov)
    · refine ih (bindOne pi' t' c) ?_ t ht
      rw [bindOne_startIndex, bindOne_endIndex]
      exact hov

theorem foldBind_id (pi' : PageIndex) :
    ∀ (ts : List Table) (c : PChunk),
      (∀ t ∈ ts, containsSub c.text (tableKey t) = true) →
      foldBind pi' ts c = c := by
  intro ts
  induction ts with
  | nil => intro c _; rfl
  | cons t ts ih =>
    intro c h
    show foldBind pi' ts (bindOne pi' t c) = c
    rw [bindOne_id pi' t c (h t (by simp))]
    exact ih c (fun t' ht' => h t' (by simp [ht']))

theorem pageBind_startIndex (idx : List PageIndex) (p : Page) (c : PChunk) :
    (pageBind idx p c).startIndex = c.startIndex := by
  unfold pageBind
  cases idx.find? (fun e => e.pageId == p.pageId) with
  | none => rfl
  | some pi' =>
    dsimp only
    split_ifs
    · rfl
    · exact foldBind_startIndex pi' p.tables c

theorem pageBind_endIndex (idx : List PageIndex) (p : Page) (c : PChunk) :
    (pageBind idx p c).endIndex = c.endIndex := by
  unfold pageBind
  cases idx.find? (fun e => e.pageId == p.pageId) with
  | none => rfl
  | some pi' =>
    dsimp only
    split_ifs
    · rfl
    · exact foldBind_endIndex pi' p.tables c

theorem pageBind_mono {k : Text} (idx : List PageIndex) (p : Page)
    (c : PChunk) (h : containsSub c.text k = true) :
    containsSub (pageBind idx p c).text k = true := by
  unfold pageBind
  cases idx.find? (fun e => e.pageId == p.pageId) with
  | none => exact h
  | some pi' =>
    dsimp only
    split_ifs
    · exact h
    · exact foldBind_mono pi' p.tables c h

theorem pageBind_key (idx : List PageIndex) (p : Page) (c : PChunk)
    (pi' : PageIndex) (hf : idx.find? (fun e => e.pageId == p.pageId) = some pi')
    (hne : p.tables ≠ []) :
    ∀ t ∈ p.tables,
      (c.startIndex < (pi'.endIndex : Int) ∧
        (pi'.startIndex : Int) < c.endIndex) →
      containsSub (pageBind idx p c).text (tableKey t) = true := by
  intro t ht hov
  unfold pageBind
  rw [hf]
  dsimp only
  rw [if_neg hne]
  exact foldBind_key pi' p.tables c hov t ht

theorem bindOne_no_overlap (pi' : PageIndex) (t : Table) (c : PChunk)
    (hov : ¬(c.startIndex < (pi'.endIndex : Int) ∧
      (pi'.startIndex : Int) < c.endIndex)) :
    bindOne pi' t c = c := by
  unfold bindOne
  rw [if_neg hov]

theorem foldBind_no_overlap (pi' : PageIndex) :
    ∀ (ts : List Table) (c : PChunk),
      ¬(c.startIndex < (pi'.endIndex : Int) ∧
        (pi'.startIndex : Int) < c.endIndex) →
      foldBind pi' ts c = c := by
  intro ts
  induction ts with
  | nil => intro c _; rfl
  | cons t ts ih =>
    intro c hov
    show foldBind pi' ts (bindOne pi' t c) = c
    rw [bindOne_no_overlap pi' t c hov]
    exact ih c hov

theorem pageBind_id (idx : List PageIndex) (p : Page) (c : PChunk)
    (hsat : ∀ pi', idx.find? (fun e => e.pageId == p.pageId) = some pi' →
      p.tables ≠ [] → ∀ t ∈ p.tables,
      (c.startIndex < (pi'.endIndex : Int) ∧
        (pi'.startIndex : Int) < c.endIndex) →
      containsSub c.text (tableKey t) = true) :
    pageBind idx p c = c := by
  unfold pageBind
  cases hf : idx.find? (fun e => e.pageId == p.pageId) with
  | none => rfl
  | some pi' =>
    dsimp only
    split_ifs with hemp
    · rfl
    · by_cases hov : c.startIndex < (pi'.endIndex : Int) ∧
          (pi'.startIndex : Int) < c.endIndex
      · exact foldBind_id pi' p.tables c (fun t ht => hsat pi' hf hemp t ht hov)
      · exact foldBind_no_overlap pi' p.tables c hov

theorem docBind_startIndex (idx : List PageIndex) :
    ∀ (pages : List Page) (c : PChunk),
      (docBind idx pages c).startIndex = c.startIndex := by
  intro pages
  induction pages with
  | nil => intro c; rfl
  | cons p ps ih =>
    intro c
    show (docBind idx ps (pageBind idx p c)).startIndex = c.startIndex
    rw [ih, pageBind_startIndex]

theorem docBind_endIndex (idx : List PageIndex) :
    ∀ (pages : List Page) (c : PChunk),
      (docBind idx pages c).endIndex = c.endIndex := by
  intro pages
  induction pages with
  | nil => intro c; rfl
  | cons p ps ih =>
    intro c
    show (docBind idx ps (pageBind idx p c)).endIndex = c.endIndex
    rw [ih, pageBind_endIndex]

theorem docBind_mono {k : Text} (idx : List PageIndex) :
    ∀ (pages : List Page) (c : PChunk), containsSub c.text k = true →
      containsSub (docBind idx pages c).text k = true := by
  intro pages
  induction pages with
  | nil => intro c h; exact h
  | cons p ps ih =>
    intro c h
    exact ih (pageBind idx p c) (pageBind_mono idx p c h)

theorem docBind_sat (idx : List PageIndex) :
    ∀ (pages : List Page) (c : PChunk),
      TableSat idx pages (docBind idx pages c) := by
  intro pages
  induction pages with
  | nil => intro c q hq; simp at hq
  | cons p ps ih =>
    intro c q hq pi' hf hne t ht hov
    simp only [List.mem_cons] at hq
    show containsSub (docBind idx ps (pageBind idx p c)).text (tableKey t) = true
    rcases hq with rfl | hq
    · -- the page processed first: key present after `pageBind`, kept after
      refine docBind_mono idx ps (pageBind idx q c) ?_
      refine pageBind_key idx q c pi' hf hne t ht ?_
      have h1 : (docBind idx (q :: ps) c).startIndex = c.startIndex :=
        docBind_startIndex idx (q :: ps) c
      have h2 : (docBind idx (q :: ps) c).endIndex = c.endIndex :=
        docBind_endIndex idx (q :: ps) c
      rw [h1, h2] at hov
      exact hov
    · refine ih (pageBind idx p c) q hq pi' hf hne t ht ?_
      have h1 : (docBind idx (p :: ps) c).startIndex =
          (docBind idx ps (pageBind idx p c)).startIndex := rfl
      have h2 : (docBind idx (p :: ps) c).endIndex =
          (docBind idx ps (pageBind idx p c)).endIndex := rfl
      rw [h1, h2] at hov
      exact hov

theorem docBind_id (idx : List PageIndex) :
    ∀ (pages : List Page) (c : PChunk),
      TableSat idx pages c → docBind idx pages c = c := by
  intro pages
  induction pages with
  | nil => intro c _; rfl
  | cons p ps ih =>
    intro c hsat
    show docBind idx ps (pageBind idx p c) = c
    have hp : pageBind idx p c = c :=
      pageBind_id idx p c (fun pi' hf hne t ht hov =>
        hsat p (by simp) pi' hf hne t ht hov)
    rw [hp]
    exact ih c (fun q hq => hsat q (by simp [hq]))

theorem bindTables_map (pi' : PageIndex) :
    ∀ (ts : List Table) (cs : List PChunk),
      bindTables pi' ts cs = cs.map (foldBind pi' ts) := by
  intro ts
  induction ts with
  | nil =>
    intro cs
    show cs = cs.map (foldBind pi' [])
    rw [show foldBind pi' [] = id from rfl, List.map_id]
  | cons t ts ih =>
    intro cs
    show bindTables pi' ts (cs.map (bindOne pi' t)) = cs.map (foldBind pi' (t :: ts))
    rw [ih, List.map_map]
    rfl

theorem processPage_map (idx : List PageIndex) (p : Page) (cs : List PChunk) :
    processPage idx p cs = cs.map (pageBind idx p) := by
  unfold processPage pageBind
  cases idx.find? (fun e => e.pageId == p.pageId) with
  | none => exact (List.map_id cs).symm
  | some pi' =>
    dsimp only
    split_ifs
    · exact (List.map_id cs).symm
    · exact bindTables_map pi' p.tables cs

theorem process_tables_map (idx : List PageIndex) :
    ∀ (pages : List Page) (cs : List PChunk),
      process_tables pages cs idx = cs.map (docBind idx pages) := by
  intro pages
  induction pages with
  | nil =>
    intro cs
    show cs = cs.map (docBind idx [])
    rw [show docBind idx [] = id from rfl, List.map_id]
  | cons p ps ih =>
    intro cs
    show process_tables ps (processPage idx p cs) idx =
      cs.map (docBind idx (p :: ps))
    rw [ih, processPage_map, List.map_map]
    rfl

end PDFChunker

/-- C6 (amended) — The backend table binder `PDFChunker.process_tables` is
idempotent: running it a second time on an already-bound chunk list leaves
every chunk unchanged, because the `TABLE {id}:` header guard blocks every
repeat append.  (The claim as stated fails for `chunker4.process_tables`,
which has no duplicate guard — see the counterexample.) -/
theorem c6_amended_pdf_binder_idempotent (pages : List Chunker4.Page)
    (chunks : List PDFChunker.PChunk) (pageIndices : List Chunker4.PageIndex) :
    PDFChunker.process_tables pages
        (PDFChunker.process_tables pages chunks pageIndices) pageIndices =
      PDFChunker.process_tables pages chunks pageIndices := by
  rw [PDFChunker.process_tables_map, PDFChunker.process_tables_map,
    List.map_map]
  have hfun : (PDFChunker.docBind pageIndices pages ∘
      PDFChunker.docBind pageIndices pages) =
      PDFChunker.docBind pageIndices pages := by
    funext c
    exact PDFChunker.docBind_id pageIndices pages
      (PDFChunker.docBind pageIndices pages c)
      (PDFChunker.docBind_sat pageIndices pages c)
  rw [hfun]

/-- C6 counterexample — `chunker4.process_tables` appends the rendered table
to every overlapping chunk with no duplicate guard, so a second run duplicates
the table text: applying it twice differs from applying it once. -/
theorem c6_counterexample_chunker4_binder_duplicates :
    Chunker4.process_tables [⟨1, "a".data, [⟨"1".data, [["x".data]]⟩]⟩]
        (Chunker4.process_tables [⟨1, "a".data, [⟨"1".data, [["x".data]]⟩]⟩]
          [⟨"a".data, none, none, none, 0, 1, none⟩] [⟨1, 0, 3⟩])
        [⟨1, 0, 3⟩] ≠
      Chunker4.process_tables [⟨1, "a".data, [⟨"1".data, [["x".data]]⟩]⟩]
        [⟨"a".data, none, none, none, 0, 1, none⟩] [⟨1, 0, 3⟩] := by
  decide

/-! ## C2: span ordering within a structural run -/

theorem pyFind_cases (big sub : Text) (start : Int) (h0 : 0 ≤ start) :
    pyFind big sub start = -1 ∨
      (start ≤ pyFind big sub start ∧ 0 ≤ pyFind big sub start) := by
  unfold pyFind
  rw [if_neg (by omega)]
  dsimp only
  cases hf : (List.range' start.toNat (big.length + 1 - start.toNat)).find?
      (fun i => sub.isPrefixOf (big.drop i)) with
  | none => exact Or.inl rfl
  | some i =>
    have hmem := List.mem_of_find?_eq_some hf
    have hge : start.toNat ≤ i := (List.mem_range'_1.mp hmem).1
    refine Or.inr ⟨?_, ?_⟩
    · show start ≤ (i : Int)
      omega
    · show (0 : Int) ≤ (i : Int)
      omega

namespace Chunker4

theorem wellSpaced_mono {lo' lo : Int} (h : lo' ≤ lo) :
    ∀ {l : List Chunk4}, WellSpaced lo l → WellSpaced lo' l := by
  intro l hl
  cases l with
  | nil => trivial
  | cons c cs => exact ⟨le_trans h hl.1, hl.2.1, hl.2.2⟩

theorem wellSpacedTo_append {lo mid : Int} :
    ∀ {l1 : List Chunk4} {l2 : List Chunk4},
      WellSpacedTo lo l1 mid → WellSpaced mid l2 →
      WellSpaced lo (l1 ++ l2) := by
  intro l1
  induction l1 generalizing lo with
  | nil =>
    intro l2 h1 h2
    exact wellSpaced_mono h1 h2
  | cons c cs ih =>
    intro l2 h1 h2
    exact ⟨h1.1, h1.2.1, ih h1.2.2 h2⟩

theorem sentLoop_spans (tc : Text → Nat) (maxT : Nat) (p c s : Option Text) :
    ∀ (sents : List Text) (buf : Text) (tok : Nat) (subStart : Int)
      (count : Nat) (cur : Int),
      0 ≤ cur → (subStart < 0 ∨ cur ≤ subStart) →
      (∀ ch ∈ (sentLoop tc maxT p c s sents buf tok subStart count cur).1,
        0 ≤ ch.startIndex) →
      WellSpacedTo cur (sentLoop tc maxT p c s sents buf tok subStart count cur).1
          (sentLoop tc maxT p c s sents buf tok subStart count cur).2 ∧
        0 ≤ (sentLoop tc maxT p c s sents buf tok subStart count cur).2 := by
  intro sents
  induction sents with
  | nil =>
    intro buf tok subStart count cur hcur hsub hpos
    rw [sentLoop] at hpos ⊢
    by_cases h : pyStrip buf ≠ []
    · rw [if_pos h] at hpos ⊢
      have hchpos : 0 ≤ subStart := by
        have := hpos ⟨pyStrip buf, p, c, s, subStart,
          subStart + (pyStrip buf).length,
          if count > 1 then some count else none⟩ (by simp)
        exact this
      have hcs : cur ≤ subStart := by
        rcases hsub with hneg | hle
        · omega
        · exact hle
      have hlen : 0 < (pyStrip buf).length := List.length_pos.mpr h
      refine ⟨⟨hcs, ?_, ?_⟩, ?_⟩
      · show subStart < subStart + ((pyStrip buf).length : Int)
        omega
      · show WellSpacedTo (subStart + ((pyStrip buf).length : Int)) []
          (subStart + ((pyStrip buf).length : Int))
        exact le_refl _
      · show (0 : Int) ≤ subStart + ((pyStrip buf).length : Int)
        omega
    · rw [if_neg h] at hpos ⊢
      exact ⟨le_refl cur, hcur⟩
  | cons sn rest ih =>
    intro buf tok subStart count cur hcur hsub hpos
    rw [sentLoop] at hpos ⊢
    by_cases h1 : tok + tc sn ≤ maxT
    · rw [if_pos h1] at hpos ⊢
      exact ih _ _ _ _ _ hcur hsub hpos
    · rw [if_neg h1] at hpos ⊢
      by_cases h2 : pyStrip buf ≠ []
      · rw [if_pos h2] at hpos ⊢
        dsimp only at hpos ⊢
        have hchpos : 0 ≤ subStart := by
          have := hpos ⟨pyStrip buf, p, c, s, subStart,
            subStart + (pyStrip buf).length, some count⟩ (by simp)
          exact this
        have hcs : cur ≤ subStart := by
          rcases hsub with hneg | hle
          · omega
          · exact hle
        have hlen : 0 < (pyStrip buf).length := List.length_pos.mpr h2
        have hrec := ih (sn ++ [' ']) (tc sn)
          (subStart + ((pyStrip buf).length : Int)) (count + 1)
          (subStart + ((pyStrip buf).length : Int)) (by omega)
          (Or.inr (le_refl _))
          (fun ch hch => hpos ch (by simp [hch]))
        refine ⟨⟨hcs, ?_, hrec.1⟩, hrec.2⟩
        show subStart < subStart + ((pyStrip buf).length : Int)
        omega
      · rw [if_neg h2] at hpos ⊢
        exact ih _ _ _ _ _ hcur (Or.inr (le_refl cur)) hpos

theorem parLoop_spans (tc : Text → Nat) (maxT : Nat) (p c s : Option Text)
    (full : Text) :
    ∀ (paras : List Text) (cur : Int), 0 ≤ cur →
      (∀ ch ∈ parLoop tc maxT p c s full paras cur, 0 ≤ ch.startIndex) →
      WellSpaced cur (parLoop tc maxT p c s full paras cur) := by
  intro paras
  induction paras with
  | nil => intro cur _ _; trivial
  | cons para rest ih =>
    intro cur hcur hpos
    rw [parLoop] at hpos ⊢
    by_cases hp : pyStrip para = []
    · rw [if_pos hp] at hpos ⊢
      exact ih cur hcur hpos
    · rw [if_neg hp] at hpos ⊢
      by_cases hm : tc (pyStrip para) ≤ maxT
      · rw [if_pos hm] at hpos ⊢
        have hch0 : 0 ≤ pyFind full (pyStrip para) cur := by
          have := hpos ⟨pyStrip para, p, c, s, pyFind full (pyStrip para) cur,
            pyFind full (pyStrip para) cur + (pyStrip para).length, none⟩
            (by simp)
          exact this
        have hge : cur ≤ pyFind full (pyStrip para) cur := by
          rcases pyFind_cases full (pyStrip para) cur hcur with hneg | ⟨hge, _⟩
          · omega
          · exact hge
        have hlen : 0 < (pyStrip para).length := by
          rcases Nat.eq_zero_or_pos (pyStrip para).length with hz | hp'
          · exact absurd (List.length_eq_zero.mp hz) hp
          · exact hp'
        refine ⟨hge, ?_, ?_⟩
        · show pyFind full (pyStrip para) cur <
            pyFind full (pyStrip para) cur + ((pyStrip para).length : Int)
          omega
        · show WellSpaced
            (pyFind full (pyStrip para) cur + ((pyStrip para).length : Int))
            (parLoop tc maxT p c s full rest
              (pyFind full (pyStrip para) cur + ((pyStrip para).length : Int)))
          exact ih (pyFind full (pyStrip para) cur +
              ((pyStrip para).length : Int)) (by omega)
            (fun ch hch => hpos ch (by simp [hch]))
      · rw [if_neg hm] at hpos ⊢
        dsimp only at hpos ⊢
        have hsubinv : pyFind full (pyStrip para) cur < 0 ∨
            cur ≤ pyFind full (pyStrip para) cur := by
          rcases pyFind_cases full (pyStrip para) cur hcur with hneg | ⟨hge, _⟩
          · rw [hneg]; exact Or.inl (by omega)
          · exact Or.inr hge
        have hsent := sentLoop_spans tc maxT p c s (splitSentences
            (pyStrip para)) [] 0 (pyFind full (pyStrip para) cur) 1 cur hcur
          hsubinv (fun ch hch => hpos ch (by simp [hch]))
        refine wellSpacedTo_append hsent.1 ?_
        exact ih _ hsent.2 (fun ch hch => hpos ch (by simp [hch]))

end Chunker4

/-- C2 (amended) — Within one structural run, the chunk spans emitted by
`split_into_paragraph_chunks` are strictly increasing and pairwise
non-overlapping (each chunk satisfies `start < end` and starts no earlier than
the previous chunk's end), provided every emitted span has a non-negative
start (i.e. every paragraph lookup succeeded — a failed `str.find` records
`-1`).  The union of the spans does *not* reconstruct the document text:
heading lines and blank-line separators are uncovered (see the
counterexample), so the claim's no-gap reconstruction fails. -/
theorem c2_amended_spans_ordered_within_run (tc : Text → Nat) (maxT : Nat)
    (text : Text) (p c s : Option Text) (startIndex : Int) (full : Text)
    (h0 : 0 ≤ startIndex)
    (hpos : ∀ ch ∈ Chunker4.split_into_paragraph_chunks tc maxT text p c s
      startIndex full, 0 ≤ ch.startIndex) :
    Chunker4.WellSpaced startIndex
      (Chunker4.split_into_paragraph_chunks tc maxT text p c s startIndex
        full) :=
  Chunker4.parLoop_spans tc maxT p c s full (splitParas text) startIndex h0
    hpos

/-- Witness for `c2_amended_spans_ordered_within_run` on a concrete run. -/
theorem c2_witness :
    (0 : Int) ≤ 0 ∧
      (∀ ch ∈ Chunker4.split_into_paragraph_chunks tcLen 700 "a\n\nb".data
        none none none 0 "a\n\nb\n\n".data, 0 ≤ ch.startIndex) ∧
      Chunker4.WellSpaced 0
        (Chunker4.split_into_paragraph_chunks tcLen 700 "a\n\nb".data none
          none none 0 "a\n\nb\n\n".data) :=
  ⟨by decide, by decide,
    c2_amended_spans_ordered_within_run tcLen 700 "a\n\nb".data none none
      none 0 "a\n\nb\n\n".data (by decide) (by decide)⟩

/-- C2 counterexample — on the one-page document with text `"a\n\nb"` the
segmenter emits spans `[0,1)` and `[3,4)` over the 6-character concatenated
text `"a\n\nb\n\n"`: offset 1 is covered by no chunk, so the union of spans
does not reconstruct the text. -/
theorem c2_counterexample_segmenter_spans_leave_gaps :
    ("a\n\nb\n\n".data.length = 6) ∧
      ((Chunker4.identify_boundaries_and_paragraphs tcLen 700
          "a\n\nb\n\n".data).map (fun ch => (ch.startIndex, ch.endIndex)) =
        [(0, 1), (3, 4)]) ∧
      (∀ ch ∈ Chunker4.identify_boundaries_and_paragraphs tcLen 700
          "a\n\nb\n\n".data,
        ¬(ch.startIndex ≤ 1 ∧ (1 : Int) < ch.endIndex)) := by
  refine ⟨by decide, by decide, by decide⟩

/-! ## C1: the token ceiling of the bounded chunker -/

theorem countNonWS_strip_le (t : Text) : countNonWS (pyStrip t) ≤ countNonWS t := by
  have hs1 : List.Sublist (t.dropWhile isWS) t :=
    (List.dropWhile_suffix isWS).sublist
  have hs2 : List.Sublist (dropTrailingWS (t.dropWhile isWS))
      (t.dropWhile isWS) := by
    unfold dropTrailingWS
    have h := (List.dropWhile_suffix (l := (t.dropWhile isWS).reverse)
      isWS).sublist
    have h2 := h.reverse
    rwa [List.reverse_reverse] at h2
  have hs : List.Sublist (pyStrip t) t := hs2.trans hs1
  exact List.Sublist.length_le (hs.filter _)

namespace Chunker4

theorem sentLoop_tokens (tc : Text → Nat) (maxT : Nat) (p c s : Option Text)
    (hsub : ∀ a b : Text, tc (a ++ b) ≤ tc a + tc b) (hsp : tc [' '] = 0)
    (hstrip : ∀ t, tc (pyStrip t) ≤ tc t) :
    ∀ (sents : List Text) (buf : Text) (tok : Nat) (subStart : Int)
      (count : Nat) (cur : Int),
      (tc buf ≤ tok ∨ (buf = [] ∧ tok = 0)) →
      (buf = [] ∨ tc (pyStrip buf) ≤ maxT ∨
        ∃ sn, buf = sn ++ [' '] ∧ maxT < tc sn) →
      ∀ ch ∈ (sentLoop tc maxT p c s sents buf tok subStart count cur).1,
        tc ch.text ≤ maxT ∨
          ∃ sn, ch.text = pyStrip (sn ++ [' ']) ∧ maxT < tc sn := by
  intro sents
  induction sents with
  | nil =>
    intro buf tok subStart count cur hI1 hI2 ch hch
    rw [sentLoop] at hch
    by_cases h : pyStrip buf ≠ []
    · rw [if_pos h] at hch
      simp only [List.mem_singleton] at hch
      subst hch
      show tc (pyStrip buf) ≤ maxT ∨
        ∃ sn, pyStrip buf = pyStrip (sn ++ [' ']) ∧ maxT < tc sn
      rcases hI2 with rfl | hle | ⟨sn, rfl, hlt⟩
      · exact absurd pyStrip_nil h
      · exact Or.inl hle
      · exact Or.inr ⟨sn, rfl, hlt⟩
    · rw [if_neg h] at hch
      simp at hch
  | cons sn rest ih =>
    intro buf tok subStart count cur hI1 hI2 ch hch
    rw [sentLoop] at hch
    have hsn1 : tc (sn ++ [' ']) ≤ tc sn := by
      calc tc (sn ++ [' ']) ≤ tc sn + tc [' '] := hsub _ _
        _ = tc sn := by simp [hsp]
    have hsn2 : (sn ++ [' ']) = [] ∨ tc (pyStrip (sn ++ [' '])) ≤ maxT ∨
        ∃ s', (sn ++ [' ']) = s' ++ [' '] ∧ maxT < tc s' := by
      by_cases hle : tc sn ≤ maxT
      · exact Or.inr (Or.inl (le_trans (hstrip _) (le_trans hsn1 hle)))
      · exact Or.inr (Or.inr ⟨sn, rfl, by omega⟩)
    by_cases h1 : tok + tc sn ≤ maxT
    · rw [if_pos h1] at hch
      have hb : tc (buf ++ sn) ≤ tok + tc sn := by
        rcases hI1 with hI | ⟨rfl, rfl⟩
        · calc tc (buf ++ sn) ≤ tc buf + tc sn := hsub buf sn
            _ ≤ tok + tc sn := by omega
        · simp only [List.nil_append]
          omega
      have hnew : tc (buf ++ sn ++ [' ']) ≤ tok + tc sn := by
        calc tc ((buf ++ sn) ++ [' ']) ≤ tc (buf ++ sn) + tc [' '] := hsub _ _
          _ = tc (buf ++ sn) := by simp [hsp]
          _ ≤ tok + tc sn := hb
      refine ih _ _ _ _ _ (Or.inl hnew)
        (Or.inr (Or.inl (le_trans (hstrip _) (le_trans hnew h1)))) ch hch
    · rw [if_neg h1] at hch
      by_cases h2 : pyStrip buf ≠ []
      · rw [if_pos h2] at hch
        dsimp only at hch
        simp only [List.mem_cons] at hch
        rcases hch with rfl | hch
        · show tc (pyStrip buf) ≤ maxT ∨
            ∃ sn', pyStrip buf = pyStrip (sn' ++ [' ']) ∧ maxT < tc sn'
          rcases hI2 with rfl | hle | ⟨s', rfl, hlt⟩
          · exact absurd pyStrip_nil h2
          · exact Or.inl hle
          · exact Or.inr ⟨s', rfl, hlt⟩
        · exact ih _ _ _ _ _ (Or.inl hsn1) hsn2 ch hch
      · rw [if_neg h2] at hch
        exact ih _ _ _ _ _ (Or.inl hsn1) hsn2 ch hch

theorem parLoop_tokens (tc : Text → Nat) (maxT : Nat) (p c s : Option Text)
    (full : Text)
    (hsub : ∀ a b : Text, tc (a ++ b) ≤ tc a + tc b) (hsp : tc [' '] = 0)
    (hstrip : ∀ t, tc (pyStrip t) ≤ tc t) :
    ∀ (paras : List Text) (cur : Int),
      ∀ ch ∈ parLoop tc maxT p c s full paras cur,
        tc ch.text ≤ maxT ∨
          ∃ sn, ch.text = pyStrip (sn ++ [' ']) ∧ maxT < tc sn := by
  intro paras
  induction paras with
  | nil => intro cur ch hch; simp [parLoop] at hch
  | cons para rest ih =>
    intro cur ch hch
    rw [parLoop] at hch
    by_cases hp : pyStrip para = []
    · rw [if_pos hp] at hch
      exact ih cur ch hch
    · rw [if_neg hp] at hch
      by_cases hm : tc (pyStrip para) ≤ maxT
      · rw [if_pos hm] at hch
        simp only [List.mem_cons] at hch
        rcases hch with rfl | hch
        · exact Or.inl hm
        · exact ih _ ch hch
      · rw [if_neg hm] at hch
        dsimp only at hch
        simp only [List.mem_append] at hch
        rcases hch with hch | hch
        · exact sentLoop_tokens tc maxT p c s hsub hsp hstrip _ _ _ _ _ _
            (Or.inr ⟨rfl, rfl⟩) (Or.inl rfl) ch hch
        · exact ih _ ch hch

end Chunker4

/-- C1 (amended) — For a tokenizer that is subadditive under concatenation,
counts a single space as zero tokens and never grows under stripping, every
chunk emitted by `chunker4.split_into_paragraph_chunks` either satisfies
`token_count(chunk.text) ≤ max_tokens` or is a single sentence, emitted alone
as its own chunk, whose own token count exceeds `max_tokens`.  (The claim as
stated additionally covers `PDFChunker.create_contextual_chunks`, where it
fails — see the counterexample.) -/
theorem c1_amended_chunker4_token_bound (tc : Text → Nat) (maxT : Nat)
    (text : Text) (p c s : Option Text) (si : Int) (full : Text)
    (hsub : ∀ a b : Text, tc (a ++ b) ≤ tc a + tc b) (hsp : tc [' '] = 0)
    (hstrip : ∀ t, tc (pyStrip t) ≤ tc t) :
    ∀ ch ∈ Chunker4.split_into_paragraph_chunks tc maxT text p c s si full,
      tc ch.text ≤ maxT ∨
        ∃ sn, ch.text = pyStrip (sn ++ [' ']) ∧ maxT < tc sn :=
  Chunker4.parLoop_tokens tc maxT p c s full hsub hsp hstrip
    (splitParas text) si

/-- Witness for `c1_amended_chunker4_token_bound` with the concrete
subadditive tokenizer `countNonWS` on a small run. -/
theorem c1_witness :
    countNonWS (Chunker4.Chunk4.mk "ab cd".data none none none 0 5 none).text
        ≤ 5 ∨
      ∃ sn, (Chunker4.Chunk4.mk "ab cd".data none none none 0 5 none).text =
        pyStrip (sn ++ [' ']) ∧ 5 < countNonWS sn :=
  c1_amended_chunker4_token_bound countNonWS 5 "ab cd".data none none none 0
    "ab cd".data
    (fun a b => le_of_eq (by simp [countNonWS, List.filter_append]))
    (by decide) countNonWS_strip_le
    (Chunker4.Chunk4.mk "ab cd".data none none none 0 5 none) (by decide)

/-- C1 counterexample — `PDFChunker.create_contextual_chunks` emits a chunk
whose token count (here, character count with `max_tokens = 20`,
`overlap_tokens = 15`) exceeds the ceiling even though the chunk holds three
sentences, not a single oversized one: when the running total is still at most
`overlap_tokens`, the guard at line 287 admits a whole oversized paragraph. -/
theorem c1_counterexample_contextual_chunk_exceeds_budget :
    ((PDFChunker.create_contextual_chunks tcLen 20 15
        [⟨"S".data, "ab. cd. ef".data, 0⟩]).map (fun ch => ch.text) =
      ["SECTION: S\n\nab. cd. ef".data]) ∧
      20 < tcLen "SECTION: S\n\nab. cd. ef".data ∧
      2 ≤ (splitSentences "SECTION: S\n\nab. cd. ef".data).length := by
  refine ⟨by decide, by decide, by decide⟩
